import Mathlib

/-!
# Verification of the rmt-compose evaluation core (Rust sources)

A shallow embedding of the numeric value system (`fraction.rs`, `value.rs`),
the dependency graph (`graph.rs`), the bytecode stack VM and the persistent
evaluator (`bytecode.rs`, `evaluator.rs`), together with theorems settling
the specification claims about them.

Modelling conventions, used consistently below:

* `Fraction` (a wrapper around an arbitrary-precision `BigRational`) is
  modelled as `ℚ`.  Its canonical-form invariant (reduced, positive
  denominator) is definitionally true of `ℚ`.
* Machine integers are modelled as `ℕ` / `ℤ` with the source's narrowing
  casts (`as i32`, `as u32`, `to_i64`, `to_u32`) made explicit as functions
  (`u32_as_i32`, `wrap32`, `to_i64`, saturating conversions).
* `f64` values are modelled as `ℚ`.  Exact rational operations on them
  (comparison with `0.0`, multiplication by integers, `round`) are modelled
  exactly; the transcendental `powf` has no exact rational meaning and is
  modelled by the placeholder `irrationalPow`, whose result no theorem in
  this file ever inspects.  The literal `1e-10` is modelled by the exact
  rational `1/10^10` (the nearest `f64` differs from it by about `2e-27`,
  far below every margin appearing in the proofs, which are at least
  `1e-4` wide).
* Rust `HashMap` / `HashSet` are modelled as `ℕ → Option _` respectively
  `Finset ℕ`; wherever the source's iteration order over a hash container
  can influence the result, the source sorts (noted at each use site).
-/

/- The arithmetic of `ℚ` is marked `@[irreducible]` upstream; making it
semireducible lets concrete executions of the embedded code be settled by
kernel reduction (`decide`). -/
attribute [local semireducible] Rat.add Rat.mul Rat.inv Rat.sub

/-- Ascending sort of a finite set of naturals (models Rust `Vec::sort` on
the collected elements of a `HashSet`; the sorted output is independent of
the unspecified iteration order, which is what makes the lift well
defined). -/
def finsetSortAsc (s : Finset ℕ) : List ℕ :=
  Quot.liftOn s.val (fun l => List.insertionSort (· ≤ ·) l) (fun _ _ h =>
    List.eq_of_perm_of_sorted
      ((List.perm_insertionSort _ _).trans
        (h.trans (List.perm_insertionSort _ _).symm))
      (List.sorted_insertionSort _ _) (List.sorted_insertionSort _ _))

/-! ## fraction.rs — the Fraction type, modelled as ℚ -/

/-- `Fraction::new(num, den)` (`fraction.rs`): a zero denominator yields the
canonical zero fraction `0/1`; otherwise `BigRational::new` reduces
`num/den`, which is exactly `ℚ` division of integers. -/
def Fraction.new (num den : ℤ) : ℚ :=
  if den = 0 then 0 else (num : ℚ) / (den : ℚ)

/-- `Fraction::new_raw(num, den)` (`fraction.rs`): no zero-denominator guard in
the source (callers guarantee `den ≠ 0`; `BigRational::new` would panic on 0).
Modelled totally with the same formula. -/
def Fraction.new_raw (num den : ℤ) : ℚ :=
  if den = 0 then 0 else (num : ℚ) / (den : ℚ)

/-- `Fraction::div` (`fraction.rs`): division by zero returns the canonical one
fraction (matches the JS behaviour, per the source comment). -/
def Fraction.div (a b : ℚ) : ℚ :=
  if b = 0 then 1 else a / b

/-- `Fraction::inverse` (`fraction.rs`): reciprocal, with `1/0 = 1`. -/
def Fraction.inverse (a : ℚ) : ℚ :=
  if a = 0 then 1 else a⁻¹

/-- `Fraction::s` (`fraction.rs`): sign accessor, `-1`, `0` or `1`. -/
def Fraction.s (q : ℚ) : ℤ :=
  if q = 0 then 0 else if 0 < q then 1 else -1

/-- `Fraction::n` (`fraction.rs`): absolute numerator as `u32`, saturating to
`u32::MAX` (`to_u32().unwrap_or(u32::MAX)`). -/
def Fraction.n (q : ℚ) : ℕ :=
  min q.num.natAbs 4294967295

/-- `Fraction::d` (`fraction.rs`): denominator as `u32`, saturating to
`u32::MAX`. -/
def Fraction.d (q : ℚ) : ℕ :=
  min q.den 4294967295

/-! ### Narrowing casts used by the sources -/

/-- Rust `u32 as i32` (two's-complement reinterpretation). -/
def u32_as_i32 (n : ℕ) : ℤ :=
  if n < 2147483648 then (n : ℤ) else (n : ℤ) - 4294967296

/-- Rust `i64 as i32` (wrapping truncation to 32 bits). -/
def wrap32 (z : ℤ) : ℤ :=
  (z + 2147483648) % 4294967296 - 2147483648

/-- `BigInt::to_i64()`: `some` exactly when the value fits in a signed
64-bit integer. -/
def to_i64 (z : ℤ) : Option ℤ :=
  if -9223372036854775808 ≤ z ∧ z < 9223372036854775808 then some z else none

/-- Rust `f64 as i64` cast: saturating (modelled on the exact rational). -/
def i64_sat (z : ℤ) : ℤ :=
  max (-9223372036854775808) (min z 9223372036854775807)

/-- Rust `f64 as u32` cast: saturating to `[0, u32::MAX]`. -/
def u32_sat (z : ℤ) : ℕ :=
  (max 0 (min z 4294967295)).toNat

/-- Rust `f64::round()`: round half away from zero, modelled on the exact
rational. -/
def roundHalfAway (q : ℚ) : ℤ :=
  if 0 ≤ q then ⌊q + 1/2⌋ else -⌊-q + 1/2⌋

/-- Placeholder for `f64::powf` on values with no exact rational meaning.
No theorem in this file depends on this value; every proved statement about
`pow`/`div`/`mul` stays on code paths where `powf` is not consulted. -/
def irrationalPow (_base _exp : ℚ) : ℚ := 0

/-! ### `Fraction::from_f64` (`fraction.rs`)

The source converts an `f64` to a fraction by scanning denominators
`1..=max_iterations` where `max_iterations = 100`, keeping the best
approximation and stopping early once the error drops below the tolerance
`1e-10`.  (Note: the bound is 100, not the 10 000 used by the compiler's
separate `decimal_to_fraction` helper in `compiler.rs`.)  The input and the
arithmetic are modelled exactly over `ℚ` as described in the header. -/

/-- The denominator-scanning loop of `Fraction::from_f64`, carrying
`(best_num, best_den, best_error)` through the remaining denominators. -/
def fromF64Loop (abs_value : ℚ) : List ℕ → ℤ → ℕ → ℚ → ℤ × ℕ
  | [], best_num, best_den, _ => (best_num, best_den)
  | den :: rest, best_num, best_den, best_error =>
    let num : ℤ := i64_sat (roundHalfAway (abs_value * (den : ℚ)))
    let error : ℚ := |abs_value - (num : ℚ) / (den : ℚ)|
    if error < best_error then
      if error < 1/10000000000 then (num, den)
      else fromF64Loop abs_value rest num den error
    else fromF64Loop abs_value rest best_num best_den best_error

/-- `Fraction::from_f64` (`fraction.rs`).  The `!value.is_finite()` guard has
no counterpart for an exact rational input. -/
def Fraction.from_f64 (value : ℚ) : ℚ :=
  let sign : ℤ := if value < 0 then -1 else 1
  let abs_value := |value|
  if abs_value = 0 then Fraction.new_raw 0 1
  else if |abs_value - (roundHalfAway abs_value : ℚ)| < 1/10000000000 then
    Fraction.new_raw (sign * i64_sat (roundHalfAway abs_value)) 1
  else
    let init_num : ℤ := i64_sat (roundHalfAway abs_value)
    let init_err : ℚ := |abs_value - (init_num : ℚ)|
    let best := fromF64Loop abs_value (List.range' 1 100) init_num 1 init_err
    Fraction.new_raw (sign * best.1) (best.2 : ℤ)

/-! ## value.rs — SymbolicPower and Value -/

/-- `SymbolicPower` (`value.rs`): a rational coefficient times a product of
`base ^ exponent` terms; `PowerTerm { base : u32, exponent : Fraction }` is
modelled as `ℕ × ℚ`. -/
structure SymbolicPower where
  coefficient : ℚ
  powers : List (ℕ × ℚ)
deriving DecidableEq

/-- `SymbolicPower::from_power` (`value.rs`). -/
def SymbolicPower.from_power (base : ℕ) (exponent : ℚ) : SymbolicPower :=
  ⟨1, [(base, exponent)]⟩

/-- `SymbolicPower::from_rational` (`value.rs`). -/
def SymbolicPower.from_rational (frac : ℚ) : SymbolicPower :=
  ⟨frac, []⟩

/-- `SymbolicPower::to_f64` (`value.rs`), under the `f64`-as-`ℚ` convention;
power terms go through the `powf` placeholder. -/
def SymbolicPower.to_f64 (sp : SymbolicPower) : ℚ :=
  sp.powers.foldl (fun result p => result * irrationalPow (p.1 : ℚ) p.2)
    sp.coefficient

/-- `SymbolicPower::is_rational` (`value.rs`): no power terms, or every
exponent has denominator 1 (via the saturating `d()` accessor, which equals 1
exactly when the true denominator is 1). -/
def SymbolicPower.is_rational (sp : SymbolicPower) : Bool :=
  sp.powers.isEmpty || sp.powers.all (fun p => Fraction.d p.2 == 1)

/-- `SymbolicPower::to_rational_fraction` (`value.rs`): folds
`coefficient × ∏ baseᵢ^expᵢ` with the source's narrowing casts: the exponent
goes through `s() * (n() as i32)` and each computed power through
`Fraction::new(base_pow as i32, 1)`.  (The `i64` power itself is modelled
exactly; its debug-mode overflow panic is not modelled — no theorem below
evaluates this function outside the small range.) -/
def SymbolicPower.to_rational_fraction (sp : SymbolicPower) : Option ℚ :=
  if sp.is_rational then
    some (sp.powers.foldl (fun result p =>
      let int_exp : ℤ := Fraction.s p.2 * u32_as_i32 (Fraction.n p.2)
      if 0 ≤ int_exp then
        result * Fraction.new (wrap32 ((p.1 : ℤ) ^ int_exp.toNat)) 1
      else
        Fraction.div result (Fraction.new (wrap32 ((p.1 : ℤ) ^ (-int_exp).toNat)) 1))
      sp.coefficient)
  else none

/-- Last-occurrence lookup of a base in a power list.  `HashMap::insert` over
the left operand's terms makes the *last* duplicate win, so this mirrors the
map contents after the first insertion loop of `SymbolicPower::mul`/`div`. -/
def lastExp (powers : List (ℕ × ℚ)) (base : ℕ) : Option ℚ :=
  (powers.reverse.find? (fun p => p.1 == base)).map Prod.snd

/-- The merged exponent of `base` after both loops of `SymbolicPower::mul`:
the left operand's entry (last duplicate wins) plus the sum of all of the
right operand's entries for that base (`get_mut`/`insert` accumulates). -/
def mulExp (a b : SymbolicPower) (base : ℕ) : ℚ :=
  ((lastExp a.powers base).getD 0) +
    ((b.powers.filter (fun p => p.1 == base)).map Prod.snd).sum

/-- As `mulExp` but for `SymbolicPower::div`: the right operand's entries are
subtracted (a missing left entry starts from the inserted negation, which is
the same as subtracting from 0). -/
def divExp (a b : SymbolicPower) (base : ℕ) : ℚ :=
  ((lastExp a.powers base).getD 0) -
    ((b.powers.filter (fun p => p.1 == base)).map Prod.snd).sum

/-- The bases mentioned by either operand. -/
def mulBases (a b : SymbolicPower) : Finset ℕ :=
  (a.powers.map Prod.fst).toFinset ∪ (b.powers.map Prod.fst).toFinset

/-- `SymbolicPower::mul` (`value.rs`): merge power maps adding like-base
exponents, drop zero exponents, then `normalize()` sorts by base.  The
`HashMap` iteration order is unobservable after the sort, so the result is
the ascending-base list of merged nonzero entries. -/
def SymbolicPower.mul (a b : SymbolicPower) : SymbolicPower :=
  ⟨a.coefficient * b.coefficient,
    finsetSortAsc ((mulBases a b).filter (fun base => mulExp a b base ≠ 0))
      |>.map (fun base => (base, mulExp a b base))⟩

/-- `SymbolicPower::div` (`value.rs`): as `mul` with exponent subtraction and
`Fraction::div` on coefficients. -/
def SymbolicPower.div (a b : SymbolicPower) : SymbolicPower :=
  ⟨Fraction.div a.coefficient b.coefficient,
    finsetSortAsc ((mulBases a b).filter (fun base => divExp a b base ≠ 0))
      |>.map (fun base => (base, divExp a b base))⟩

/-- Stable insertion used to model Rust's stable `sort_by_key` on bases:
an element is inserted after all existing entries with a smaller-or-equal
key, preserving the relative order of equal keys. -/
def insertByBase (p : ℕ × ℚ) : List (ℕ × ℚ) → List (ℕ × ℚ)
  | [] => [p]
  | q :: rest => if p.1 < q.1 then p :: q :: rest else q :: insertByBase p rest

/-- Stable sort by base (models `Vec::sort_by_key(|p| p.base)`). -/
def sortByBase (l : List (ℕ × ℚ)) : List (ℕ × ℚ) :=
  l.foldl (fun acc p => insertByBase p acc) []

/-- `SymbolicPower::normalize` (`value.rs`): drop zero exponents (the
`n() != 0` test holds exactly when the exponent is nonzero), then stable-sort
by base. -/
def SymbolicPower.normalize (sp : SymbolicPower) : SymbolicPower :=
  ⟨sp.coefficient, sortByBase (sp.powers.filter (fun p => p.2 ≠ 0))⟩

/-- `SymbolicPower::mul_rational` (`value.rs`). -/
def SymbolicPower.mul_rational (sp : SymbolicPower) (frac : ℚ) : SymbolicPower :=
  ⟨sp.coefficient * frac, sp.powers⟩

/-! ### Rational powers (`value.rs` free functions) -/

/-- The repeated-squaring `while remaining > 0` loop of `rational_int_power`
(`value.rs`).  The first argument is structural-recursion fuel: `remaining`
halves every iteration, so any fuel at least `remaining` is enough and the
fuelled function agrees with the source's unbounded loop. -/
def intPowerLoop : ℕ → ℚ → ℚ → ℕ → ℚ
  | 0, _, result, _ => result
  | fuel + 1, current, result, remaining =>
    if remaining = 0 then result
    else
      intPowerLoop fuel (current * current)
        (if remaining % 2 = 1 then result * current else result)
        (remaining / 2)

/-- `rational_int_power` (`value.rs`): `base ^ n` by repeated squaring, the
negative case via `Fraction::inverse`. -/
def rational_int_power (base : ℚ) (n : ℤ) : ℚ :=
  if n = 0 then 1
  else
    let r := intPowerLoop n.natAbs base 1 n.natAbs
    if n < 0 then Fraction.inverse r else r

/-- The exact floor `n`-th root of a natural number; models the seed
`(value as f64).powf(1.0 / n as f64).round()` of `integer_nth_root`.  The
source verifies the three candidates `seed−1, seed, seed+1` exactly, so its
result agrees with the model whenever the floating seed is within one of the
true root (always the case for the ranges evaluated in this file). -/
def introot (value n : ℕ) : ℕ :=
  Nat.findGreatest (fun r => r ^ n ≤ value) value

/-- `integer_nth_root` (`value.rs`): exact integer `n`-th root or `none`.
The candidate check `checked_pow(n as u32) == Some(value)` is equivalent to
exact equality `candidate ^ (n % 2^32) = value` in `ℕ` (an overflowing power
exceeds `u64`, hence differs from `value`). -/
def integer_nth_root (value n : ℕ) : Option ℕ :=
  if value = 0 then some 0
  else if value = 1 ∨ n = 1 then some value
  else
    let root := introot value n
    if (root - 1) ^ (n % 4294967296) = value then some (root - 1)
    else if root ^ (n % 4294967296) = value then some root
    else if (root + 1) ^ (n % 4294967296) = value then some (root + 1)
    else none

/-- `try_perfect_nth_root` (`value.rs`). -/
def try_perfect_nth_root (value : ℚ) (n : ℕ) : Option ℚ :=
  if n = 0 then none
  else if n = 1 then some value
  else do
    let num ← to_i64 value.num
    let den ← to_i64 (value.den : ℤ)
    let num_abs := num.natAbs
    let den_abs := den.natAbs
    let num_root ← integer_nth_root num_abs n
    let den_root ← integer_nth_root den_abs n
    if num_root ^ (n % 4294967296) = num_abs ∧
        den_root ^ (n % 4294967296) = den_abs then
      if num < 0 then
        if n % 2 = 1 then
          some (Fraction.new_raw (-(num_root : ℤ)) (den_root : ℤ))
        else none
      else some (Fraction.new_raw (num_root : ℤ) (den_root : ℤ))
    else none

/-- `try_rational_power` (`value.rs`): `base ^ (num/den)` as an exact rational
when possible.  The exponent's components go through `BigInt::to_i64()`; a
component outside `i64` makes the whole attempt fail (and the caller then
degrades to symbolic/irrational). -/
def try_rational_power (base exp : ℚ) : Option ℚ := do
  let exp_num ← to_i64 exp.num
  let exp_den ← to_i64 (exp.den : ℤ)
  if exp_num = 0 then some (Fraction.new 1 1)
  else if exp_den = 1 then some (rational_int_power base exp_num)
  else
    let base_powered := rational_int_power base exp_num
    try_perfect_nth_root base_powered exp_den.toNat

/-- `SymbolicPower::pow` (`value.rs`): scale every exponent, raise the
coefficient via the rational-power rule (falling back to the `powf`
placeholder), then normalize. -/
def SymbolicPower.pow (sp : SymbolicPower) (exponent : ℚ) : SymbolicPower :=
  let new_coeff :=
    match try_rational_power sp.coefficient exponent with
    | some result => result
    | none => Fraction.from_f64 (irrationalPow sp.coefficient exponent)
  SymbolicPower.normalize
    ⟨new_coeff, sp.powers.map (fun p => (p.1, p.2 * exponent))⟩

/-! ### The Value enum (`value.rs`) -/

/-- `Value` (`value.rs`): exact rational, irrational `f64` (modelled as `ℚ`,
see header), or symbolic power product. -/
inductive Value where
  | Rational (f : ℚ)
  | Irrational (v : ℚ)
  | Symbolic (sp : SymbolicPower)
deriving DecidableEq

/-- `Value::rational(num, den)` (`value.rs`), from `i32` components. -/
def Value.rational (num den : ℤ) : Value :=
  Value.Rational (Fraction.new num den)

/-- `Value::is_corrupted` (`value.rs`). -/
def Value.is_corrupted : Value → Bool
  | .Rational _ => false
  | .Irrational _ => true
  | .Symbolic _ => true

/-- `Value::is_rational` (`value.rs`). -/
def Value.is_rational : Value → Bool
  | .Rational _ => true
  | _ => false

/-- `Value::is_symbolic` (`value.rs`). -/
def Value.is_symbolic : Value → Bool
  | .Symbolic _ => true
  | _ => false

/-- `Value::to_f64` (`value.rs`), under the `f64`-as-`ℚ` convention. -/
def Value.to_f64 : Value → ℚ
  | .Rational f => f
  | .Irrational v => v
  | .Symbolic sp => sp.to_f64

/-- `Value::add` (`value.rs`): rational + rational stays rational; everything
else collapses to irrational via `to_f64`. -/
def Value.add : Value → Value → Value
  | .Rational a, .Rational b => .Rational (a + b)
  | a, b => .Irrational (a.to_f64 + b.to_f64)

/-- `Value::sub` (`value.rs`). -/
def Value.sub : Value → Value → Value
  | .Rational a, .Rational b => .Rational (a - b)
  | a, b => .Irrational (a.to_f64 - b.to_f64)

/-- The fold-back step shared by the symbolic arms of `mul`/`div`/`pow`:
if the combined symbolic value is rationalizable, return it as `Rational`. -/
def foldSymbolic (result : SymbolicPower) : Value :=
  if result.is_rational then
    match result.to_rational_fraction with
    | some rational => .Rational rational
    | none => .Symbolic result
  else .Symbolic result

/-- `Value::mul` (`value.rs`): rational × rational exact; symbolic arms
combine and fold back to rational when possible; any irrational operand
collapses to irrational. -/
def Value.mul : Value → Value → Value
  | .Rational a, .Rational b => .Rational (a * b)
  | .Symbolic a, .Symbolic b => foldSymbolic (a.mul b)
  | .Symbolic sp, .Rational f => foldSymbolic (sp.mul_rational f)
  | .Rational f, .Symbolic sp => foldSymbolic (sp.mul_rational f)
  | a, b => .Irrational (a.to_f64 * b.to_f64)

/-- `Value::div` (`value.rs`): the `_` fallback arm returns the canonical one
fraction when the divisor's `to_f64` is zero. -/
def Value.div : Value → Value → Value
  | .Rational a, .Rational b => .Rational (Fraction.div a b)
  | .Symbolic a, .Symbolic b => foldSymbolic (a.div b)
  | .Symbolic sp, .Rational f => foldSymbolic (sp.mul_rational (Fraction.inverse f))
  | .Rational f, .Symbolic sp => foldSymbolic ((SymbolicPower.from_rational f).div sp)
  | a, b =>
    if b.to_f64 = 0 then .Rational (Fraction.new 1 1)
    else .Irrational (a.to_f64 / b.to_f64)

/-- `Value::neg` (`value.rs`). -/
def Value.neg : Value → Value
  | .Rational f => .Rational (-f)
  | .Irrational v => .Irrational (-v)
  | .Symbolic sp => .Symbolic (sp.mul_rational (Fraction.new (-1) 1))

/-- `Value::pow` (`value.rs`): try the exact rational power; otherwise a
positive-integer base (the source tests this via `to_f64`/`floor`, exact for
the integer-valued rationals below `u32::MAX` on which this file evaluates
it; modelled by the exact test `den = 1`) becomes symbolic, anything else
irrational. -/
def Value.pow : Value → Value → Value
  | .Rational base, .Rational exp =>
    (match try_rational_power base exp with
    | some result => .Rational result
    | none =>
      if 0 < base ∧ base.den = 1 ∧ base ≤ 4294967295 then
        .Symbolic (SymbolicPower.from_power base.num.toNat exp)
      else .Irrational (irrationalPow base exp))
  | .Symbolic sp, .Rational exp => foldSymbolic (sp.pow exp)
  | a, b => .Irrational (irrationalPow a.to_f64 b.to_f64)

/-- `Value::abs` (`value.rs`). -/
def Value.abs : Value → Value
  | .Rational f => .Rational |f|
  | .Irrational v => .Irrational |v|
  | .Symbolic sp =>
    if Fraction.s sp.coefficient < 0 then
      .Symbolic (sp.mul_rational (Fraction.new (-1) 1))
    else .Symbolic sp

/-- `Value::inverse` (`value.rs`). -/
def Value.inverse : Value → Value
  | .Rational f => .Rational (Fraction.inverse f)
  | .Irrational v =>
    if v = 0 then .Rational (Fraction.new 1 1) else .Irrational v⁻¹
  | .Symbolic sp => .Symbolic ((SymbolicPower.from_rational (Fraction.new 1 1)).div sp)

/-! ## graph.rs — the dependency graph -/

/-- `DependencyGraph` (`graph.rs`): forward map `dependencies`, inverse map
`dependents` (both `HashMap<u32, HashSet<u32>>`, modelled as partial maps to
finite sets), and the base-note dependent set. -/
structure DependencyGraph where
  dependencies : ℕ → Option (Finset ℕ)
  dependents : ℕ → Option (Finset ℕ)
  base_note_dependents : Finset ℕ

/-- `DependencyGraph::new` (`graph.rs`). -/
def DependencyGraph.new : DependencyGraph :=
  ⟨fun _ => none, fun _ => none, ∅⟩

/-- `DependencyGraph::get_dependencies` (`graph.rs`):
`get(id).cloned().unwrap_or_default()`. -/
def DependencyGraph.get_dependencies (g : DependencyGraph) (note_id : ℕ) : Finset ℕ :=
  (g.dependencies note_id).getD ∅

/-- `DependencyGraph::get_dependents` (`graph.rs`). -/
def DependencyGraph.get_dependents (g : DependencyGraph) (note_id : ℕ) : Finset ℕ :=
  (g.dependents note_id).getD ∅

/-- The inverse-map update performed by the first loop of
`update_dependencies` and by `remove_note`: erase `note_id` from the entry's
set, dropping the key when the set becomes empty (`if dep_set.is_empty() {
remove }`); a missing key is left untouched (`if let Some(dep_set) = ...`). -/
def eraseDependent (entry : Option (Finset ℕ)) (note_id : ℕ) : Option (Finset ℕ) :=
  match entry with
  | some s => if s.erase note_id = ∅ then none else some (s.erase note_id)
  | none => none

/-- `DependencyGraph::update_dependencies` (`graph.rs`): diff old against new
dependencies, maintaining the inverse index in lockstep, then overwrite the
forward entry and the base-note flag.  The two source loops touch disjoint
keys (`old \ new` and `new \ old`), so their iteration order over the hash
sets is immaterial and they are modelled as one case split per key. -/
def DependencyGraph.update_dependencies (g : DependencyGraph) (note_id : ℕ)
    (new_deps : Finset ℕ) (references_base : Bool) : DependencyGraph :=
  let old_deps := (g.dependencies note_id).getD ∅
  let dependents1 : ℕ → Option (Finset ℕ) := fun x =>
    if x ∈ old_deps ∧ x ∉ new_deps then eraseDependent (g.dependents x) note_id
    else g.dependents x
  let dependents2 : ℕ → Option (Finset ℕ) := fun x =>
    if x ∈ new_deps ∧ x ∉ old_deps then
      some (insert note_id ((dependents1 x).getD ∅))
    else dependents1 x
  { dependencies := Function.update g.dependencies note_id (some new_deps)
    dependents := dependents2
    base_note_dependents :=
      if references_base then insert note_id g.base_note_dependents
      else g.base_note_dependents.erase note_id }

/-- `DependencyGraph::remove_note` (`graph.rs`), following the source's
sequencing: (1) remove the forward entry and erase `note_id` from the inverse
entries of its dependencies; (2) remove the (possibly just-modified) inverse
entry of `note_id` and erase `note_id` from the forward entries of its
dependents (the forward entry of `note_id` itself is already gone, so a
self-loop is a no-op there, as in the source); (3) drop the base-note flag. -/
def DependencyGraph.remove_note (g : DependencyGraph) (note_id : ℕ) : DependencyGraph :=
  let deps := (g.dependencies note_id).getD ∅
  let dependencies1 := Function.update g.dependencies note_id none
  let dependents1 : ℕ → Option (Finset ℕ) := fun x =>
    if x ∈ deps then eraseDependent (g.dependents x) note_id else g.dependents x
  let dependents_of_this := (dependents1 note_id).getD ∅
  let dependents2 := Function.update dependents1 note_id none
  let dependencies2 : ℕ → Option (Finset ℕ) := fun x =>
    if x ∈ dependents_of_this then (dependencies1 x).map (fun s => s.erase note_id)
    else dependencies1 x
  { dependencies := dependencies2
    dependents := dependents2
    base_note_dependents := g.base_note_dependents.erase note_id }

/-- A graph mutation through the public API (`addNote`/`updateDependencies`
or `removeNote`). -/
inductive GraphOp where
  | update (note_id : ℕ) (new_deps : Finset ℕ) (references_base : Bool)
  | remove (note_id : ℕ)

/-- Apply one mutation. -/
def applyGraphOp (g : DependencyGraph) : GraphOp → DependencyGraph
  | .update note_id new_deps references_base =>
      g.update_dependencies note_id new_deps references_base
  | .remove note_id => g.remove_note note_id

/-- The graph reached from the empty graph by a sequence of mutations. -/
def applyGraphOps (ops : List GraphOp) : DependencyGraph :=
  ops.foldl applyGraphOp DependencyGraph.new

/-- The bidirectional-index invariant of the spec:
`b ∈ forward[a] ⇔ a ∈ inverse[b]`. -/
def Coherent (g : DependencyGraph) : Prop :=
  ∀ a b : ℕ, b ∈ g.get_dependencies a ↔ a ∈ g.get_dependents b

/-! ### `get_evaluation_order` (`graph.rs`) — Kahn's algorithm on a stack

The source sorts the zero-in-degree seed vector ascending and then consumes
it with `Vec::pop()` (from the *end*); newly ready notes are sorted ascending
and appended.  The loop below mirrors that exactly: `getLast?`/`dropLast`
model `pop`, `++` models `extend`.  The source's `while` loop terminates
because no note is ever pushed twice (proved as `kahnLoop_spec` below); the
explicit fuel `card + 1` supplied by `get_evaluation_order` is enough for the
same reason, so the model agrees with the source on every input. -/

/-- One run of the source's `while let Some(id) = queue.pop()` loop.
`deg` models the `in_degree` map (keyed exactly by `note_ids`, hence the
membership filter on `dependents`); `Nat` subtraction models
`saturating_sub`. -/
def kahnLoop (g : DependencyGraph) (note_ids : Finset ℕ) :
    ℕ → (ℕ → ℕ) → List ℕ → List ℕ → List ℕ
  | 0, _, _, result => result
  | fuel + 1, deg, queue, result =>
    match queue.getLast? with
    | none => result
    | some id =>
      let rest := queue.dropLast
      let affected := (g.get_dependents id).filter (fun v => v ∈ note_ids)
      let deg' : ℕ → ℕ := fun v => if v ∈ affected then deg v - 1 else deg v
      let new_zeros := finsetSortAsc (affected.filter (fun v => deg v - 1 = 0))
      kahnLoop g note_ids fuel deg' (rest ++ new_zeros) (result ++ [id])

/-- `DependencyGraph::get_evaluation_order` (`graph.rs`). -/
def DependencyGraph.get_evaluation_order (g : DependencyGraph)
    (note_ids : Finset ℕ) : List ℕ :=
  let in_degree : ℕ → ℕ :=
    fun id => ((g.get_dependencies id).filter (fun d => d ∈ note_ids)).card
  let queue := finsetSortAsc (note_ids.filter (fun id => in_degree id = 0))
  kahnLoop g note_ids (note_ids.card + 1) in_degree queue []

/-- Acyclicity of the induced subgraph on `s`, in the standard finite form:
every nonempty subset has a member with no dependencies inside the subset.
(Equivalent to the absence of a dependency cycle within `s`; stated over
`s.powerset` so that it is decidable on concrete inputs.) -/
def AcyclicOn (g : DependencyGraph) (s : Finset ℕ) : Prop :=
  ∀ t ∈ s.powerset, t.Nonempty → ∃ a ∈ t, ∀ b ∈ t, b ∉ g.get_dependencies a

instance (g : DependencyGraph) (s : Finset ℕ) : Decidable (AcyclicOn g s) := by
  unfold AcyclicOn
  infer_instance

/-! ## bytecode.rs — opcodes, variables, big-endian readers -/

/-- `Op` (`bytecode.rs`). -/
inductive Op where
  | LoadConst | LoadRef | LoadBase | LoadConstBig
  | Add | Sub | Mul | Div | Neg | Pow
  | FindTempo | FindMeasure | FindInstrument
  | Dup | Swap
deriving DecidableEq

/-- `Op::from_byte` (`bytecode.rs`). -/
def Op.from_byte (byte : ℕ) : Option Op :=
  if byte = 0x01 then some .LoadConst
  else if byte = 0x02 then some .LoadRef
  else if byte = 0x03 then some .LoadBase
  else if byte = 0x04 then some .LoadConstBig
  else if byte = 0x10 then some .Add
  else if byte = 0x11 then some .Sub
  else if byte = 0x12 then some .Mul
  else if byte = 0x13 then some .Div
  else if byte = 0x14 then some .Neg
  else if byte = 0x15 then some .Pow
  else if byte = 0x20 then some .FindTempo
  else if byte = 0x21 then some .FindMeasure
  else if byte = 0x22 then some .FindInstrument
  else if byte = 0x30 then some .Dup
  else if byte = 0x31 then some .Swap
  else none

/-- `Var` (`bytecode.rs`). -/
inductive Var where
  | StartTime | Duration | Frequency | Tempo | BeatsPerMeasure | MeasureLength
deriving DecidableEq

/-- `Var as u8` / `as usize` (the discriminant values 0..5). -/
def Var.index : Var → ℕ
  | .StartTime => 0
  | .Duration => 1
  | .Frequency => 2
  | .Tempo => 3
  | .BeatsPerMeasure => 4
  | .MeasureLength => 5

/-- `Var::from_byte` (`bytecode.rs`). -/
def Var.from_byte (byte : ℕ) : Option Var :=
  if byte = 0 then some .StartTime
  else if byte = 1 then some .Duration
  else if byte = 2 then some .Frequency
  else if byte = 3 then some .Tempo
  else if byte = 4 then some .BeatsPerMeasure
  else if byte = 5 then some .MeasureLength
  else none

/-- Byte access `bytecode[i]`; bytecode is a list of bytes (each `< 256` at
every use in this file).  Out-of-range access would panic in Rust and is
modelled as 0 — every theorem below evaluates within bounds. -/
def byteAt (bytecode : List ℕ) (i : ℕ) : ℕ := bytecode.getD i 0

/-- `read_u16` (`bytecode.rs`): big-endian, `(b[o] << 8) | b[o+1]`. -/
def read_u16 (bytecode : List ℕ) (offset : ℕ) : ℕ :=
  byteAt bytecode offset * 256 + byteAt bytecode (offset + 1)

/-- `read_i32` (`bytecode.rs`): big-endian two's-complement reinterpretation
of four bytes. -/
def read_i32 (bytecode : List ℕ) (offset : ℕ) : ℤ :=
  let m := byteAt bytecode offset * 16777216 + byteAt bytecode (offset + 1) * 65536 +
    byteAt bytecode (offset + 2) * 256 + byteAt bytecode (offset + 3)
  if m < 2147483648 then (m : ℤ) else (m : ℤ) - 4294967296

/-- `BigInt::from_bytes_be(Sign::Plus, bytes)`: big-endian magnitude. -/
def bigFromBytesBE (bytes : List ℕ) : ℕ :=
  bytes.foldl (fun acc b => acc * 256 + b) 0

/-- `read_big_int_unsigned` (`bytecode.rs`): `[len(2)] [bytes(len)]`; bounds
are checked against the full buffer length (not the VM's `length`
argument), as in the source. -/
def read_big_int_unsigned (bytecode : List ℕ) (offset : ℕ) :
    Except String (ℕ × ℕ) :=
  if offset + 2 > bytecode.length then
    .error "Unexpected end of bytecode reading BigInt length"
  else
    let len := read_u16 bytecode offset
    if offset + 2 + len > bytecode.length then
      .error "Unexpected end of bytecode reading BigInt bytes"
    else
      .ok (bigFromBytesBE ((bytecode.drop (offset + 2)).take len), 2 + len)

/-- `read_big_int_signed` (`bytecode.rs`): `[sign(1)] [len(2)] [bytes]`;
sign byte `0x01` negates. -/
def read_big_int_signed (bytecode : List ℕ) (offset : ℕ) :
    Except String (ℤ × ℕ) :=
  if offset ≥ bytecode.length then
    .error "Unexpected end of bytecode reading sign byte"
  else
    let sign_byte := byteAt bytecode offset
    match read_big_int_unsigned bytecode (offset + 1) with
    | .error e => .error e
    | .ok (magnitude, mag_bytes) =>
      .ok (if sign_byte = 0x01 then -(magnitude : ℤ) else (magnitude : ℤ),
        1 + mag_bytes)

/-! ## evaluator.rs — FractionData, EvaluatedNote, the stack VM -/

/-- `FractionData` (`evaluator.rs`): the serialisable per-variable cache
record.  Its only fields are sign / absolute numerator / denominator /
optional float / corrupted flag — there is no symbolic payload. -/
structure FractionData where
  s : ℤ
  n : ℕ
  d : ℕ
  f : Option ℚ
  corrupted : Bool
deriving DecidableEq

/-- `FractionData::default` (`evaluator.rs`). -/
def FractionData.default : FractionData := ⟨0, 0, 1, none, false⟩

/-- `FractionData::to_value` (`evaluator.rs`): corrupted records decode to
`Irrational(f)`, everything else to a rational rebuilt from
`(s as i32) * (n as i32)` over `d as i32` (with the `u32 as i32` wraps of
the source). -/
def FractionData.to_value (fd : FractionData) : Value :=
  if fd.corrupted then Value.Irrational (fd.f.getD 0)
  else Value.Rational (Fraction.new (fd.s * u32_as_i32 fd.n) (u32_as_i32 fd.d))

/-- `FractionData::to_fraction` (`evaluator.rs`). -/
def FractionData.to_fraction (fd : FractionData) : ℚ :=
  if fd.corrupted then Fraction.from_f64 (fd.f.getD 0)
  else Fraction.new (fd.s * u32_as_i32 fd.n) (u32_as_i32 fd.d)

/-- Models `f.numerator_str().parse::<u64>().unwrap_or(0)`: `numerator_str`
prints `numer * signum`, i.e. the absolute numerator, and parsing fails
(yielding 0) when it does not fit `u64`. -/
def parse_u64_abs (m : ℕ) : ℕ :=
  if m < 18446744073709551616 then m else 0

/-- `FractionData::from_fraction` (`evaluator.rs`): overflow of either
component beyond `u32` (as detected through the saturating accessors plus a
string re-parse) stores the float value with `corrupted = true`; otherwise
the exact components are stored. -/
def FractionData.from_fraction (q : ℚ) : FractionData :=
  let n_val := Fraction.n q
  let d_val := Fraction.d q
  let n_overflow := n_val = 4294967295 ∧ parse_u64_abs q.num.natAbs > 4294967295
  let d_overflow := d_val = 4294967295 ∧ parse_u64_abs q.den > 4294967295
  if n_overflow ∨ d_overflow then
    let float_val := q
    let sign : ℤ := if float_val < 0 then -1 else if 0 < float_val then 1 else 0
    ⟨sign, u32_sat (roundHalfAway (|float_val| * 1000000)), 1000000,
      some float_val, true⟩
  else ⟨Fraction.s q, n_val, d_val, none, false⟩

/-- `FractionData::from_value` (`evaluator.rs`).  The source's `match` has
arms only for `Value::Rational` and `Value::Irrational`; it lacks a
`Value::Symbolic` arm (a non-exhaustive match).  The symbolic case is
modelled as the irrational arm applied to `sp.to_f64()` — the only behaviour
expressible with `FractionData`'s fields, and the one the spec describes
(the cached record keeps only the float approximation). -/
def FractionData.from_value : Value → FractionData
  | .Rational frac => FractionData.from_fraction frac
  | .Irrational val =>
    ⟨if val < 0 then -1 else if 0 < val then 1 else 0,
      u32_sat (roundHalfAway (|val| * 1000000)), 1000000, some val, true⟩
  | .Symbolic sp =>
    ⟨if sp.to_f64 < 0 then -1 else if 0 < sp.to_f64 then 1 else 0,
      u32_sat (roundHalfAway (|sp.to_f64| * 1000000)), 1000000,
      some sp.to_f64, true⟩

/-- `EvaluatedNote` (`evaluator.rs`). -/
structure EvaluatedNote where
  start_time : Option FractionData
  duration : Option FractionData
  frequency : Option FractionData
  tempo : Option FractionData
  beats_per_measure : Option FractionData
  measure_length : Option FractionData
  corruption_flags : ℕ
deriving DecidableEq

/-- `EvaluatedNote::default` (`evaluator.rs`). -/
def EvaluatedNote.default : EvaluatedNote :=
  ⟨none, none, none, none, none, none, 0⟩

/-- `EvaluatedNote::get_var` (`evaluator.rs`). -/
def EvaluatedNote.get_var (note : EvaluatedNote) : Var → Option FractionData
  | .StartTime => note.start_time
  | .Duration => note.duration
  | .Frequency => note.frequency
  | .Tempo => note.tempo
  | .BeatsPerMeasure => note.beats_per_measure
  | .MeasureLength => note.measure_length

/-- `EvaluatedNote::set_var` (`evaluator.rs`). -/
def EvaluatedNote.set_var (note : EvaluatedNote) (var : Var)
    (value : FractionData) : EvaluatedNote :=
  match var with
  | .StartTime => { note with start_time := some value }
  | .Duration => { note with duration := some value }
  | .Frequency => { note with frequency := some value }
  | .Tempo => { note with tempo := some value }
  | .BeatsPerMeasure => { note with beats_per_measure := some value }
  | .MeasureLength => { note with measure_length := some value }

/-- `corruption_flag_for_var` (`value.rs`). -/
def corruption_flag_for_var (var_index : ℕ) : ℕ :=
  if var_index = 0 then 0x01
  else if var_index = 1 then 0x02
  else if var_index = 2 then 0x04
  else if var_index = 3 then 0x08
  else if var_index = 4 then 0x10
  else if var_index = 5 then 0x20
  else 0

/-- The evaluation cache (`HashMap<u32, EvaluatedNote>`). -/
def EvalCache : Type := ℕ → Option EvaluatedNote

/-- `Evaluator::default_value` (`evaluator.rs`): the per-variable defaults,
always rational. -/
def Evaluator.default_value (var : Var) : Value :=
  Value.Rational (match var with
  | .StartTime => Fraction.new 0 1
  | .Duration => Fraction.new 1 1
  | .Frequency => Fraction.new 440 1
  | .Tempo => Fraction.new 60 1
  | .BeatsPerMeasure => Fraction.new 4 1
  | .MeasureLength => Fraction.new 4 1)

/-- The LOAD_REF lookup of `Evaluator::evaluate` / `evaluate_with_cache`
(`evaluator.rs`, identical in both): cache value for the note, `or_else`
base-note fallback for the inheritable variables
`{tempo, beatsPerMeasure, measureLength}`, `unwrap_or` the default. -/
def loadRefLookup (eval_cache : EvalCache) (note_id : ℕ) (var : Var) : Value :=
  let value := ((eval_cache note_id).bind (fun note => note.get_var var)).map
    FractionData.to_value
  let value := value.orElse (fun _ =>
    if var = .Tempo ∨ var = .BeatsPerMeasure ∨ var = .MeasureLength then
      ((eval_cache 0).bind (fun note => note.get_var var)).map
        FractionData.to_value
    else none)
  value.getD (Evaluator.default_value var)

/-- The LOAD_BASE lookup of `Evaluator::evaluate` (`evaluator.rs`). -/
def loadBaseLookup (eval_cache : EvalCache) (var : Var) : Value :=
  (((eval_cache 0).bind (fun note => note.get_var var)).map
    FractionData.to_value).getD (Evaluator.default_value var)

/-- The FIND_TEMPO lookup (`evaluator.rs`): always the base note's tempo (or
60); the popped reference is discarded. -/
def findTempoLookup (eval_cache : EvalCache) : Value :=
  (((eval_cache 0).bind (fun note => note.tempo)).map
    FractionData.to_value).getD (Value.rational 60 1)

/-- The FIND_MEASURE computation (`evaluator.rs`):
`beatsPerMeasure(id or base, default 4) * 60 / tempo(id or base, default 60)`. -/
def findMeasureLookup (eval_cache : EvalCache) (note_id : ℕ) : Value :=
  let beats_per_measure :=
    ((((eval_cache note_id).bind (fun note => note.beats_per_measure)).orElse
      (fun _ => (eval_cache 0).bind (fun note => note.beats_per_measure))).map
        FractionData.to_value).getD (Value.rational 4 1)
  let tempo :=
    ((((eval_cache note_id).bind (fun note => note.tempo)).orElse
      (fun _ => (eval_cache 0).bind (fun note => note.tempo))).map
        FractionData.to_value).getD (Value.rational 60 1)
  (beats_per_measure.mul (Value.rational 60 1)).div tempo

/-- Result of one VM dispatch step: an error, or new `(pc, stack)`. -/
def StepResult : Type := Except String (ℕ × List Value)

/-- `Evaluator::push` (`evaluator.rs`): overflow at `max_stack_size = 1024`.
The stack is a list with its head as the top (`Vec` push/pop at the end). -/
def vmPush (stack : List Value) (value : Value) : Except String (List Value) :=
  if stack.length ≥ 1024 then .error "Stack overflow in evaluator"
  else .ok (value :: stack)

/-- One opcode dispatch of `Evaluator::evaluate` (`evaluator.rs`), operating
at `pc` already advanced past the opcode byte. -/
def vmStep (eval_cache : EvalCache) (bytecode : List ℕ) (length : ℕ)
    (op : Op) (pc : ℕ) (stack : List Value) : StepResult :=
  match op with
  | .LoadConst =>
    if pc + 8 > length then .error "Unexpected end of bytecode in LOAD_CONST"
    else
      let num := read_i32 bytecode pc
      let den := read_i32 bytecode (pc + 4)
      (vmPush stack (Value.rational num den)).map (fun s => (pc + 8, s))
  | .LoadConstBig =>
    match read_big_int_signed bytecode pc with
    | .error _ => .error "Error reading big numerator"
    | .ok (num, num_bytes) =>
      match read_big_int_unsigned bytecode (pc + num_bytes) with
      | .error _ => .error "Error reading big denominator"
      | .ok (den, den_bytes) =>
        (vmPush stack (Value.Rational (Fraction.new_raw num (den : ℤ)))).map
          (fun s => (pc + num_bytes + den_bytes, s))
  | .LoadRef =>
    if pc + 3 > length then .error "Unexpected end of bytecode in LOAD_REF"
    else
      let note_id := read_u16 bytecode pc
      let var_idx := byteAt bytecode (pc + 2)
      match Var.from_byte var_idx with
      | none => .error "Invalid variable index"
      | some var =>
        (vmPush stack (loadRefLookup eval_cache note_id var)).map
          (fun s => (pc + 3, s))
  | .LoadBase =>
    if pc + 1 > length then .error "Unexpected end of bytecode in LOAD_BASE"
    else
      let var_idx := byteAt bytecode pc
      match Var.from_byte var_idx with
      | none => .error "Invalid variable index"
      | some var =>
        (vmPush stack (loadBaseLookup eval_cache var)).map
          (fun s => (pc + 1, s))
  | .Add =>
    match stack with
    | b :: a :: rest => (vmPush rest (a.add b)).map (fun s => (pc, s))
    | _ => .error "Stack underflow in evaluator"
  | .Sub =>
    match stack with
    | b :: a :: rest => (vmPush rest (a.sub b)).map (fun s => (pc, s))
    | _ => .error "Stack underflow in evaluator"
  | .Mul =>
    match stack with
    | b :: a :: rest => (vmPush rest (a.mul b)).map (fun s => (pc, s))
    | _ => .error "Stack underflow in evaluator"
  | .Div =>
    match stack with
    | b :: a :: rest => (vmPush rest (a.div b)).map (fun s => (pc, s))
    | _ => .error "Stack underflow in evaluator"
  | .Neg =>
    match stack with
    | a :: rest => (vmPush rest a.neg).map (fun s => (pc, s))
    | _ => .error "Stack underflow in evaluator"
  | .Pow =>
    match stack with
    | exp :: base :: rest => (vmPush rest (base.pow exp)).map (fun s => (pc, s))
    | _ => .error "Stack underflow in evaluator"
  | .FindTempo =>
    match stack with
    | _ :: rest =>
      (vmPush rest (findTempoLookup eval_cache)).map (fun s => (pc, s))
    | _ => .error "Stack underflow in evaluator"
  | .FindMeasure =>
    match stack with
    | note_ref :: rest =>
      let note_id := u32_sat (roundHalfAway note_ref.to_f64)
      (vmPush rest (findMeasureLookup eval_cache note_id)).map
        (fun s => (pc, s))
    | _ => .error "Stack underflow in evaluator"
  | .FindInstrument =>
    match stack with
    | _ :: rest => (vmPush rest (Value.rational 0 1)).map (fun s => (pc, s))
    | _ => .error "Stack underflow in evaluator"
  | .Dup =>
    match stack with
    | top :: _ => (vmPush stack top).map (fun s => (pc, s))
    | _ => .error "Stack empty in evaluator"
  | .Swap =>
    match stack with
    | a :: b :: rest => .ok (pc, b :: a :: rest)
    | _ => .error "Stack underflow in evaluator"

/-- The `while pc < length` loop of `Evaluator::evaluate` (`evaluator.rs`).
`fuel = length` always suffices: every iteration advances `pc` by at least
one, and both exhaustion branches return the stack unchanged. -/
def vmLoop (eval_cache : EvalCache) (bytecode : List ℕ) (length : ℕ) :
    ℕ → ℕ → List Value → Except String (List Value)
  | 0, _, stack => .ok stack
  | fuel + 1, pc, stack =>
    if pc < length then
      match Op.from_byte (byteAt bytecode pc) with
      | none => .error "Unknown opcode"
      | some op =>
        match vmStep eval_cache bytecode length op (pc + 1) stack with
        | .error e => .error e
        | .ok (pc', stack') => vmLoop eval_cache bytecode length fuel pc' stack'
    else .ok stack

/-- `Evaluator::evaluate` (`evaluator.rs`): run the loop from an empty stack;
an empty terminal stack yields rational 0, otherwise the top of the stack is
popped (a deeper stack is tolerated). -/
def Evaluator.evaluate (eval_cache : EvalCache) (bytecode : List ℕ)
    (length : ℕ) : Except String Value :=
  if length = 0 then .ok (Value.rational 0 1)
  else
    match vmLoop eval_cache bytecode length length 0 [] with
    | .error e => .error e
    | .ok [] => .ok (Value.rational 0 1)
    | .ok (top :: _) => .ok top

/-! ## evaluator.rs — the PersistentEvaluator -/

/-- `NoteBytecode` (`evaluator.rs`): six optional `(bytecode, length)` slots
indexed by variable. -/
structure NoteBytecode where
  expressions : Var → Option (List ℕ × ℕ)

/-- `NoteBytecode::default` (`evaluator.rs`). -/
def NoteBytecode.default : NoteBytecode := ⟨fun _ => none⟩

/-- `NoteBytecode::get_expr` (`evaluator.rs`). -/
def NoteBytecode.get_expr (nb : NoteBytecode) (var : Var) :
    Option (List ℕ × ℕ) :=
  nb.expressions var

/-- `NoteBytecode::set_expr` (`evaluator.rs`); the `idx < 6` guard always
holds for a `Var`. -/
def NoteBytecode.set_expr (nb : NoteBytecode) (var : Var) (bytecode : List ℕ)
    (length : ℕ) : NoteBytecode :=
  ⟨Function.update nb.expressions var (some (bytecode, length))⟩

/-- The parsed `JsExpressions` input of `registerNote` (`evaluator.rs`):
an optional `(bytecode, length)` per variable.  (The serde parsing itself is
outside the model; a parse failure returns early without mutating.) -/
structure JsExpressions where
  start_time : Option (List ℕ × ℕ)
  duration : Option (List ℕ × ℕ)
  frequency : Option (List ℕ × ℕ)
  tempo : Option (List ℕ × ℕ)
  beats_per_measure : Option (List ℕ × ℕ)
  measure_length : Option (List ℕ × ℕ)

/-- `PersistentEvaluator` state (`evaluator.rs`): cache, bytecode store,
dirty set, generation counter.  The scratch evaluation stack is omitted: it
is cleared at the start of every `evaluate_with_cache` call and never read
between calls. -/
structure PersistentEvaluator where
  cache : ℕ → Option EvaluatedNote
  bytecode_store : ℕ → Option NoteBytecode
  dirty : Finset ℕ
  generation : ℕ

/-- `PersistentEvaluator::new` (`evaluator.rs`). -/
def PersistentEvaluator.new : PersistentEvaluator :=
  ⟨fun _ => none, fun _ => none, ∅, 0⟩

/-- `PersistentEvaluator::mark_dirty` (`evaluator.rs`). -/
def PersistentEvaluator.mark_dirty (p : PersistentEvaluator) (note_id : ℕ) :
    PersistentEvaluator :=
  { p with dirty := insert note_id p.dirty }

/-- `PersistentEvaluator::mark_dirty_batch` (`evaluator.rs`). -/
def PersistentEvaluator.mark_dirty_batch (p : PersistentEvaluator)
    (note_ids : List ℕ) : PersistentEvaluator :=
  { p with dirty := note_ids.foldl (fun d id => insert id d) p.dirty }

/-- `PersistentEvaluator::clear_dirty` (`evaluator.rs`). -/
def PersistentEvaluator.clear_dirty (p : PersistentEvaluator) :
    PersistentEvaluator :=
  { p with dirty := ∅ }

/-- `PersistentEvaluator::invalidate_note` (`evaluator.rs`). -/
def PersistentEvaluator.invalidate_note (p : PersistentEvaluator)
    (note_id : ℕ) : PersistentEvaluator :=
  { p with cache := Function.update p.cache note_id none
           dirty := insert note_id p.dirty
           generation := p.generation + 1 }

/-- `PersistentEvaluator::invalidate_all` (`evaluator.rs`). -/
def PersistentEvaluator.invalidate_all (p : PersistentEvaluator) :
    PersistentEvaluator :=
  { p with cache := fun _ => none
           dirty := ∅
           bytecode_store := fun _ => none
           generation := p.generation + 1 }

/-- `PersistentEvaluator::remove_note` (`evaluator.rs`). -/
def PersistentEvaluator.remove_note (p : PersistentEvaluator) (note_id : ℕ) :
    PersistentEvaluator :=
  { p with cache := Function.update p.cache note_id none
           bytecode_store := Function.update p.bytecode_store note_id none
           dirty := p.dirty.erase note_id
           generation := p.generation + 1 }

/-- `PersistentEvaluator::register_expression` (`evaluator.rs`): the
`entry().or_default()` inserts a default entry even when the variable index
is invalid; the slot is set only for a valid index.  Generation is not
touched. -/
def PersistentEvaluator.register_expression (p : PersistentEvaluator)
    (note_id : ℕ) (var_index : ℕ) (bytecode : List ℕ) (length : ℕ) :
    PersistentEvaluator :=
  let entry := (p.bytecode_store note_id).getD NoteBytecode.default
  let entry' := match Var.from_byte var_index with
    | some var => entry.set_expr var bytecode length
    | none => entry
  { p with bytecode_store := Function.update p.bytecode_store note_id (some entry') }

/-- `PersistentEvaluator::register_note` (`evaluator.rs`): populate the
provided slots of the note's bytecode entry and mark the note dirty.
Generation is not touched. -/
def PersistentEvaluator.register_note (p : PersistentEvaluator) (note_id : ℕ)
    (exprs : JsExpressions) : PersistentEvaluator :=
  let entry := (p.bytecode_store note_id).getD NoteBytecode.default
  let entry := match exprs.start_time with
    | some e => entry.set_expr .StartTime e.1 e.2 | none => entry
  let entry := match exprs.duration with
    | some e => entry.set_expr .Duration e.1 e.2 | none => entry
  let entry := match exprs.frequency with
    | some e => entry.set_expr .Frequency e.1 e.2 | none => entry
  let entry := match exprs.tempo with
    | some e => entry.set_expr .Tempo e.1 e.2 | none => entry
  let entry := match exprs.beats_per_measure with
    | some e => entry.set_expr .BeatsPerMeasure e.1 e.2 | none => entry
  let entry := match exprs.measure_length with
    | some e => entry.set_expr .MeasureLength e.1 e.2 | none => entry
  { p with bytecode_store := Function.update p.bytecode_store note_id (some entry)
           dirty := insert note_id p.dirty }

/-- `PersistentEvaluator::import_cache` (`evaluator.rs`), on an already
parsed cache (a serde failure returns early without mutating). -/
def PersistentEvaluator.import_cache (p : PersistentEvaluator)
    (new_cache : ℕ → Option EvaluatedNote) : PersistentEvaluator :=
  { p with cache := new_cache, generation := p.generation + 1 }

/-- `PersistentEvaluator::evaluate_with_cache` (`evaluator.rs`): the VM body
is byte-for-byte the same as `Evaluator::evaluate`, reading the persistent
cache. -/
def PersistentEvaluator.evaluate_with_cache (p : PersistentEvaluator)
    (bytecode : List ℕ) (length : ℕ) : Except String Value :=
  Evaluator.evaluate p.cache bytecode length

/-- The per-variable step of `evaluate_note_internal` (`evaluator.rs`):
on a present slot and a successful evaluation, OR the variable's corruption
flag in when the value is corrupted and set the variable; otherwise leave
the note and flags unchanged. -/
def evalVarStep (cache : ℕ → Option EvaluatedNote) (bc : NoteBytecode)
    (var : Var) (result : EvaluatedNote) (flags : ℕ) :
    EvaluatedNote × ℕ × Bool :=
  match bc.get_expr var with
  | none => (result, flags, false)
  | some (bytes, len) =>
    match Evaluator.evaluate cache bytes len with
    | .error _ => (result, flags, false)
    | .ok val =>
      let flags' := if val.is_corrupted then
          flags ||| corruption_flag_for_var var.index
        else flags
      (result.set_var var (FractionData.from_value val), flags', true)

/-- `PersistentEvaluator::evaluate_note_internal` (`evaluator.rs`),
transcribed with the source's sequencing of partial cache publications:
tempo / beatsPerMeasure / frequency against the incoming cache; publish;
measureLength (publishing again on success); startTime (publishing on
success); duration (no publication); then the derived measure-length
default for the base note or a "measure note" (startTime present, duration
and frequency absent); finally the completed note is stored. -/
def PersistentEvaluator.evaluate_note_internal (p : PersistentEvaluator)
    (note_id : ℕ) : PersistentEvaluator × Bool :=
  match p.bytecode_store note_id with
  | none => (p, false)
  | some bytecode =>
    let r1 := evalVarStep p.cache bytecode .Tempo EvaluatedNote.default 0
    let r2 := evalVarStep p.cache bytecode .BeatsPerMeasure r1.1 r1.2.1
    let r3 := evalVarStep p.cache bytecode .Frequency r2.1 r2.2.1
    let partial1 := { r3.1 with corruption_flags := r3.2.1 }
    let cache1 := Function.update p.cache note_id (some partial1)
    let r4 := evalVarStep cache1 bytecode .MeasureLength partial1 r3.2.1
    let partial2 := { r4.1 with corruption_flags := r4.2.1 }
    let cache2 := if r4.2.2 then
        Function.update cache1 note_id (some partial2)
      else cache1
    let r5 := evalVarStep cache2 bytecode .StartTime partial2 r4.2.1
    let partial3 := { r5.1 with corruption_flags := r5.2.1 }
    let cache3 := if r5.2.2 then
        Function.update cache2 note_id (some partial3)
      else cache2
    let r6 := evalVarStep cache3 bytecode .Duration partial3 r5.2.1
    let result := r6.1
    let flags := r6.2.1
    let is_measure_note := result.start_time.isSome ∧ result.duration = none ∧
      result.frequency = none
    let final :=
      if result.measure_length = none ∧ (is_measure_note ∨ note_id = 0) then
        let beats := ((result.beats_per_measure.map FractionData.to_value).orElse
          (fun _ => ((cache3 0).bind (fun c => c.beats_per_measure)).map
            FractionData.to_value)).getD (Value.rational 4 1)
        let tempo := ((result.tempo.map FractionData.to_value).orElse
          (fun _ => ((cache3 0).bind (fun c => c.tempo)).map
            FractionData.to_value)).getD (Value.rational 60 1)
        let measure_len := (beats.mul (Value.rational 60 1)).div tempo
        let flags' := if measure_len.is_corrupted then
            flags ||| corruption_flag_for_var Var.MeasureLength.index
          else flags
        ({ result with measure_length := some (FractionData.from_value measure_len)
                       corruption_flags := flags' },
          Function.update cache3 note_id
            (some { result with
              measure_length := some (FractionData.from_value measure_len)
              corruption_flags := flags' }))
      else
        ({ result with corruption_flags := flags },
          Function.update cache3 note_id
            (some { result with corruption_flags := flags }))
    ({ p with cache := final.2 }, true)

/-- `PersistentEvaluator::evaluate_dirty` (`evaluator.rs`): evaluate each id
of the supplied sorted list, then clear the dirty set and bump the
generation exactly once. -/
def PersistentEvaluator.evaluate_dirty (p : PersistentEvaluator)
    (sorted_ids : List ℕ) : PersistentEvaluator × ℕ :=
  let step := sorted_ids.foldl
    (fun (acc : PersistentEvaluator × ℕ) note_id =>
      let r := acc.1.evaluate_note_internal note_id
      (r.1, if r.2 then acc.2 + 1 else acc.2))
    (p, 0)
  ({ step.1 with dirty := ∅, generation := step.1.generation + 1 }, step.2)

/-! ## Verification artifacts for `get_evaluation_order` -/

/-- Loop invariant of the Kahn stack loop in `get_evaluation_order`:
`queue` and `result` hold distinct in-set notes; `deg` counts, for every
in-set note, its in-set dependencies not yet emitted; a note has counter 0
exactly when it is queued or emitted; and the emitted prefix is
topologically sorted (every in-set dependency of an emitted note was emitted
strictly earlier). -/
structure KahnInv (g : DependencyGraph) (s : Finset ℕ) (deg : ℕ → ℕ)
    (queue result : List ℕ) : Prop where
  nodup : (queue ++ result).Nodup
  qmem : ∀ v ∈ queue, v ∈ s
  rmem : ∀ v ∈ result, v ∈ s
  degEq : ∀ v ∈ s, deg v =
    ((g.get_dependencies v).filter (fun u => u ∈ s ∧ u ∉ result)).card
  ready : ∀ v ∈ s, (deg v = 0 ↔ v ∈ queue ∨ v ∈ result)
  topo : ∀ (i : ℕ) (h : i < result.length) (u : ℕ),
    u ∈ g.get_dependencies (result.get ⟨i, h⟩) → u ∈ s → u ∈ result.take i

/-- What the loop delivers: a duplicate-free list of in-set notes,
topologically sorted, whose complement inside `s` is “blocked” (every
non-emitted in-set note keeps a non-emitted in-set dependency). -/
def KahnOut (g : DependencyGraph) (s : Finset ℕ) (r : List ℕ) : Prop :=
  r.Nodup ∧ (∀ v ∈ r, v ∈ s) ∧
    (∀ (i : ℕ) (h : i < r.length) (u : ℕ),
      u ∈ g.get_dependencies (r.get ⟨i, h⟩) → u ∈ s → u ∈ r.take i) ∧
    (∀ v ∈ s, v ∉ r → ∃ u ∈ g.get_dependencies v, u ∈ s ∧ u ∉ r)

/-! # Theorems -/

/-! ## Numeric value system: C2, C3, C7 -/

/-- `try_rational_power` succeeds whenever the exponent is an integer whose
magnitude fits `i64` (the zero- and integer-exponent branches). -/
theorem try_rational_power_int_isSome (b e : ℚ) (hden : e.den = 1)
    (hnum : e.num.natAbs < 9223372036854775808) :
    (try_rational_power b e).isSome = true := by
  have h1 : -9223372036854775808 ≤ e.num ∧ e.num < 9223372036854775808 := by
    omega
  have h2 : to_i64 e.num = some e.num := by simp [to_i64, h1.1, h1.2]
  have h3 : to_i64 ((e.den : ℤ)) = some 1 := by
    simp [to_i64, hden]
  simp only [try_rational_power, h2, h3, Option.bind_eq_bind,
    Option.some_bind]
  split <;> simp

/-- C2, corrected: the spec's example `8.pow(1/3) = 3` is wrong — the exact
cube root of 8 is 2, and `Value::pow` returns `Rational 2`; moreover an
integer exponent whose numerator exceeds `i64` fails the `to_i64` guard in
`try_rational_power` and degrades to a Symbolic value instead of a Rational
one (here `2 ^ 2⁶³`). -/
theorem pow_spec_counterexample :
    Value.pow (.Rational 8) (.Rational (1/3)) = .Rational 2 ∧
    (2 : ℚ) ≠ 3 ∧
    Value.is_rational
      (Value.pow (.Rational 2) (.Rational 9223372036854775808)) = false := by
  refine ⟨by decide, by norm_num, ?_⟩
  decide

/-- C2 (amended): `Value::pow` on rational operands preserves exactness:
an integer exponent with magnitude below 2⁶³ yields a Rational;
`4.pow(1/2) = 2` exactly and `8.pow(1/3) = 2` exactly (both Rational). -/
theorem pow_rational_exactness (b e : ℚ) (hden : e.den = 1)
    (hnum : e.num.natAbs < 9223372036854775808) :
    (Value.pow (.Rational b) (.Rational e)).is_rational = true ∧
    Value.pow (.Rational 4) (.Rational (1/2)) = .Rational 2 ∧
    Value.pow (.Rational 8) (.Rational (1/3)) = .Rational 2 := by
  refine ⟨?_, by decide, by decide⟩
  have h := try_rational_power_int_isSome b e hden hnum
  obtain ⟨r, hr⟩ := Option.isSome_iff_exists.mp h
  simp [Value.pow, hr, Value.is_rational]

/-- Witness for `pow_rational_exactness` at `b = 5/7`, `e = 3`. -/
theorem pow_rational_exactness_witness :
    (3 : ℚ).den = 1 ∧ (3 : ℚ).num.natAbs < 9223372036854775808 ∧
    ((Value.pow (.Rational (5/7)) (.Rational 3)).is_rational = true ∧
      Value.pow (.Rational 4) (.Rational (1/2)) = .Rational 2 ∧
      Value.pow (.Rational 8) (.Rational (1/3)) = .Rational 2) :=
  ⟨by decide, by decide, pow_rational_exactness (5/7) 3 (by decide) (by decide)⟩

/-- C3: symbolic degradation and multiplicative structure of 12-TET values:
`2^(1/12)` is Symbolic with a single power term `(2, 1/12)` and unit
coefficient; squaring it combines like bases into `(2, 1/6)`; multiplying by
`2^(-1/12)` cancels the exponents and folds back to Rational 1; and
`2^(1/12) × 3^(1/13)` carries two power terms sorted by ascending base. -/
theorem tet_symbolic_structure :
    Value.pow (.Rational 2) (.Rational (1/12)) =
      .Symbolic ⟨1, [(2, 1/12)]⟩ ∧
    Value.mul (Value.pow (.Rational 2) (.Rational (1/12)))
      (Value.pow (.Rational 2) (.Rational (1/12))) =
      .Symbolic ⟨1, [(2, 1/6)]⟩ ∧
    Value.mul (Value.pow (.Rational 2) (.Rational (1/12)))
      (Value.pow (.Rational 2) (.Rational (-1/12))) = .Rational 1 ∧
    Value.mul (Value.pow (.Rational 2) (.Rational (1/12)))
      (Value.pow (.Rational 3) (.Rational (1/13))) =
      .Symbolic ⟨1, [(2, 1/12), (3, 1/13)]⟩ := by
  refine ⟨by decide, by decide, by decide, by decide⟩

/-- C7, corrected: a Symbolic dividend divided by rational zero is *not*
mapped to the canonical one — `Value::div` multiplies by
`Fraction::inverse(0) = 1` and returns the dividend unchanged (still
Symbolic, not Rational). -/
theorem div_zero_symbolic_counterexample :
    Value.div (.Symbolic ⟨1, [(2, 1/12)]⟩) (.Rational 0) =
      .Symbolic ⟨1, [(2, 1/12)]⟩ ∧
    Value.is_rational
      (Value.div (.Symbolic ⟨1, [(2, 1/12)]⟩) (.Rational 0)) = false := by
  refine ⟨by decide, by decide⟩

/-- C7 (amended): division by zero is not an error: at the Fraction level it
yields the canonical one; a zero-denominator construction yields the
canonical zero; and `Value::div` yields the canonical one whenever the
divisor is rational or irrational zero and the dividend is rational or
irrational (a Symbolic dividend is instead returned unchanged, per the
counterexample). -/
theorem div_zero_conventions :
    (∀ a : ℚ, Fraction.div a 0 = 1) ∧
    (∀ num : ℤ, Fraction.new num 0 = 0) ∧
    (∀ a : ℚ,
      Value.div (.Rational a) (.Rational 0) = .Rational 1 ∧
      Value.div (.Irrational a) (.Rational 0) = .Rational 1 ∧
      Value.div (.Rational a) (.Irrational 0) = .Rational 1 ∧
      Value.div (.Irrational a) (.Irrational 0) = .Rational 1) := by
  refine ⟨fun a => by simp [Fraction.div], fun num => by simp [Fraction.new],
    fun a => ⟨?_, ?_, ?_, ?_⟩⟩
  · simp [Value.div, Fraction.div]
  · simp [Value.div, Value.to_f64, Fraction.new]
  · simp [Value.div, Value.to_f64, Fraction.new]
  · simp [Value.div, Value.to_f64, Fraction.new]

/-! ## Persistent evaluator: C6, C9, C1 -/

/-- `evaluate_note_internal` only writes to the cache: the generation
counter is untouched. -/
theorem evaluate_note_internal_generation (p : PersistentEvaluator)
    (note_id : ℕ) :
    (p.evaluate_note_internal note_id).1.generation = p.generation := by
  unfold PersistentEvaluator.evaluate_note_internal
  cases p.bytecode_store note_id <;> rfl

/-- The counting fold of `evaluate_dirty` preserves the generation. -/
theorem evaluate_dirty_fold_generation (sorted_ids : List ℕ) :
    ∀ (p : PersistentEvaluator) (c : ℕ),
    (sorted_ids.foldl
      (fun (acc : PersistentEvaluator × ℕ) note_id =>
        let r := acc.1.evaluate_note_internal note_id
        (r.1, if r.2 then acc.2 + 1 else acc.2))
      (p, c)).1.generation = p.generation := by
  induction sorted_ids with
  | nil => intro p c; rfl
  | cons id rest ih =>
    intro p c
    simp only [List.foldl_cons]
    rw [ih]
    exact evaluate_note_internal_generation p id

/-- C6, corrected: `registerNote` mutates the bytecode store (and marks the
note dirty) but does *not* increment the generation counter — here a fresh
evaluator registers a note carrying a `LOAD_CONST 1/2` startTime expression
and the generation stays 0. -/
theorem register_note_generation_counterexample :
    (PersistentEvaluator.register_note PersistentEvaluator.new 1
      ⟨some ([1, 0, 0, 0, 1, 0, 0, 0, 2], 9), none, none, none, none, none⟩).generation
      = PersistentEvaluator.new.generation ∧
    PersistentEvaluator.new.generation = 0 := ⟨rfl, rfl⟩

/-- C6 (amended): the generation counter increments exactly once on
`evaluateDirty` (which also clears the dirty set) and on each of
`invalidateNote`, `invalidateAll`, `removeNote` and `importCache`;
`registerNote` marks the note dirty and, like `registerExpression`, mutates
the bytecode store *without* incrementing the generation. -/
theorem generation_discipline :
    (∀ (p : PersistentEvaluator) (note_id : ℕ) (exprs : JsExpressions),
      (p.register_note note_id exprs).generation = p.generation ∧
      (p.register_note note_id exprs).dirty = insert note_id p.dirty) ∧
    (∀ (p : PersistentEvaluator) (note_id var_index : ℕ) (bc : List ℕ) (len : ℕ),
      (p.register_expression note_id var_index bc len).generation = p.generation) ∧
    (∀ (p : PersistentEvaluator) (ids : List ℕ),
      (p.evaluate_dirty ids).1.generation = p.generation + 1 ∧
      (p.evaluate_dirty ids).1.dirty = ∅) ∧
    (∀ (p : PersistentEvaluator) (note_id : ℕ),
      (p.invalidate_note note_id).generation = p.generation + 1) ∧
    (∀ p : PersistentEvaluator, p.invalidate_all.generation = p.generation + 1) ∧
    (∀ (p : PersistentEvaluator) (note_id : ℕ),
      (p.remove_note note_id).generation = p.generation + 1) ∧
    (∀ (p : PersistentEvaluator) (c : ℕ → Option EvaluatedNote),
      (p.import_cache c).generation = p.generation + 1) := by
  refine ⟨fun p id exprs => ⟨rfl, rfl⟩, fun p id vi bc len => rfl,
    fun p ids => ⟨?_, rfl⟩, fun p id => rfl, fun p => rfl, fun p id => rfl,
    fun p c => rfl⟩
  unfold PersistentEvaluator.evaluate_dirty
  simp only []
  rw [evaluate_dirty_fold_generation]

/-- `Evaluator::default_value` is always rational, never symbolic. -/
theorem default_value_not_symbolic (var : Var) :
    (Evaluator.default_value var).is_symbolic = false := rfl

/-- `FractionData::to_value` decodes to Rational or Irrational only. -/
theorem to_value_not_symbolic (fd : FractionData) :
    fd.to_value.is_symbolic = false := by
  unfold FractionData.to_value
  split <;> rfl

/-- C9: symbolic structure does not survive the persistent cache.  (1) Every
value decoded from a cached `FractionData` record is Rational or Irrational,
never Symbolic.  (2) Consequently the value pushed by a LOAD_REF against any
cache is never Symbolic.  (3) The record `FractionData::from_value` stores
for a Symbolic value keeps only its `f64` approximation (`corrupted`, with
`f = sp.to_f64()`), which reads back as that Irrational approximation. -/
theorem cache_never_symbolic :
    (∀ fd : FractionData, fd.to_value.is_symbolic = false) ∧
    (∀ (cache : EvalCache) (note_id : ℕ) (var : Var),
      (loadRefLookup cache note_id var).is_symbolic = false) ∧
    (∀ sp : SymbolicPower,
      (FractionData.from_value (.Symbolic sp)).corrupted = true ∧
      (FractionData.from_value (.Symbolic sp)).to_value =
        .Irrational sp.to_f64) := by
  refine ⟨to_value_not_symbolic, ?_, fun sp => ⟨rfl, rfl⟩⟩
  intro cache note_id var
  unfold loadRefLookup
  cases h1 : (cache note_id).bind (fun note => note.get_var var) with
  | some fd => simp [h1, Option.orElse, to_value_not_symbolic]
  | none =>
    simp only [h1, Option.map_none, Option.none_orElse]
    split
    · cases h2 : (cache 0).bind (fun note => note.get_var var) with
      | some fd => simp [h2, to_value_not_symbolic]
      | none => simp [h2, default_value_not_symbolic]
    · simp [default_value_not_symbolic]

/-- `Var::from_byte` inverts the discriminant cast. -/
theorem var_from_byte_index (var : Var) : Var.from_byte var.index = some var := by
  cases var <;> rfl

/-- The LOAD_REF lookup, written as the spec's three-way case split. -/
theorem loadRefLookup_eq (cache : EvalCache) (note_id : ℕ) (var : Var) :
    loadRefLookup cache note_id var =
      (match (cache note_id).bind (fun note => note.get_var var) with
      | some fd => fd.to_value
      | none =>
        if var = .Tempo ∨ var = .BeatsPerMeasure ∨ var = .MeasureLength then
          match (cache 0).bind (fun note => note.get_var var) with
          | some fd => fd.to_value
          | none => Evaluator.default_value var
        else Evaluator.default_value var) := by
  unfold loadRefLookup
  cases h1 : (cache note_id).bind (fun note => note.get_var var) with
  | some fd => simp [h1, Option.orElse]
  | none =>
    simp only [h1, Option.map_none, Option.none_orElse]
    split
    · cases h2 : (cache 0).bind (fun note => note.get_var var) with
      | some fd => simp [h2]
      | none => simp [h2]
    · simp

/-- C1: executing a LOAD_REF opcode for variable `var` on note `note_id`
(bytecode `[0x02, id_hi, id_lo, varIndex]`) against any evaluation cache
pushes: the cache's value for that note and variable when present; otherwise,
for the inheritable variables tempo / beatsPerMeasure / measureLength, the
base note's (id 0) cached value when present; otherwise the variable's
default (startTime 0, duration 1, frequency 440, tempo 60,
beatsPerMeasure 4, measureLength 4).  Frequency is not inheritable, so it
never falls back to the base note. -/
theorem loadref_inheritance (cache : EvalCache) (note_id : ℕ) (var : Var)
    (_hrange : note_id < 65536) :
    Evaluator.evaluate cache [2, note_id / 256, note_id % 256, var.index] 4 =
      .ok (match (cache note_id).bind (fun note => note.get_var var) with
      | some fd => fd.to_value
      | none =>
        if var = .Tempo ∨ var = .BeatsPerMeasure ∨ var = .MeasureLength then
          match (cache 0).bind (fun note => note.get_var var) with
          | some fd => fd.to_value
          | none => Evaluator.default_value var
        else Evaluator.default_value var) ∧
    Evaluator.default_value .StartTime = .Rational 0 ∧
    Evaluator.default_value .Duration = .Rational 1 ∧
    Evaluator.default_value .Frequency = .Rational 440 ∧
    Evaluator.default_value .Tempo = .Rational 60 ∧
    Evaluator.default_value .BeatsPerMeasure = .Rational 4 ∧
    Evaluator.default_value .MeasureLength = .Rational 4 := by
  have hid : note_id / 256 * 256 + note_id % 256 = note_id := by
    omega
  refine ⟨?_, by norm_num [Evaluator.default_value, Fraction.new],
    by norm_num [Evaluator.default_value, Fraction.new],
    by norm_num [Evaluator.default_value, Fraction.new],
    by norm_num [Evaluator.default_value, Fraction.new],
    by norm_num [Evaluator.default_value, Fraction.new],
    by norm_num [Evaluator.default_value, Fraction.new]⟩
  rw [← loadRefLookup_eq]
  have step : Evaluator.evaluate cache
      [2, note_id / 256, note_id % 256, var.index] 4 =
      .ok (loadRefLookup cache (note_id / 256 * 256 + note_id % 256) var) := by
    cases var <;> rfl
  rw [step, hid]

/-- Witness for `loadref_inheritance`: note 5 has no cached tempo, the base
note holds tempo 90, and LOAD_REF tempo on note 5 is evaluated. -/
theorem loadref_inheritance_witness :
    (5 : ℕ) < 65536 ∧
    (Evaluator.evaluate
      (fun id => if id = 0 then
        some ⟨none, none, none, some ⟨1, 90, 1, none, false⟩, none, none, 0⟩
        else none)
      [2, 5 / 256, 5 % 256, Var.Tempo.index] 4 =
      .ok (match ((fun (id : ℕ) => if id = 0 then
          some (⟨none, none, none, some ⟨1, 90, 1, none, false⟩, none, none, 0⟩ : EvaluatedNote)
          else none) 5).bind (fun note => note.get_var .Tempo) with
      | some fd => fd.to_value
      | none =>
        if Var.Tempo = .Tempo ∨ Var.Tempo = .BeatsPerMeasure ∨
            Var.Tempo = .MeasureLength then
          match ((fun (id : ℕ) => if id = 0 then
              some (⟨none, none, none, some ⟨1, 90, 1, none, false⟩, none, none, 0⟩ : EvaluatedNote)
              else none) 0).bind (fun note => note.get_var .Tempo) with
          | some fd => fd.to_value
          | none => Evaluator.default_value .Tempo
        else Evaluator.default_value .Tempo) ∧
      Evaluator.default_value .StartTime = .Rational 0 ∧
      Evaluator.default_value .Duration = .Rational 1 ∧
      Evaluator.default_value .Frequency = .Rational 440 ∧
      Evaluator.default_value .Tempo = .Rational 60 ∧
      Evaluator.default_value .BeatsPerMeasure = .Rational 4 ∧
      Evaluator.default_value .MeasureLength = .Rational 4) :=
  ⟨by decide,
    loadref_inheritance
      (fun id => if id = 0 then
        some ⟨none, none, none, some ⟨1, 90, 1, none, false⟩, none, none, 0⟩
        else none)
      5 .Tempo (by decide)⟩

/-! ## Dependency graph: C5 (bidirectional index invariant) -/

/-- Erasing a dependent, read back as a set: dropping the key of an
emptied entry is invisible through `getD ∅`. -/
theorem eraseDependent_getD (o : Option (Finset ℕ)) (note_id : ℕ) :
    (eraseDependent o note_id).getD ∅ = (o.getD ∅).erase note_id := by
  cases o with
  | none => simp [eraseDependent]
  | some s =>
    simp only [eraseDependent, Option.getD_some]
    split
    · next h => simp [h.symm]
    · rfl

/-- Forward map after `update_dependencies`: the updated note's entry is
replaced, all others are untouched. -/
theorem get_dependencies_update (g : DependencyGraph) (note_id : ℕ)
    (new_deps : Finset ℕ) (references_base : Bool) (a : ℕ) :
    (g.update_dependencies note_id new_deps references_base).get_dependencies a
      = if a = note_id then new_deps else g.get_dependencies a := by
  unfold DependencyGraph.update_dependencies DependencyGraph.get_dependencies
  simp [Function.update_apply]
  split <;> rfl

/-- Inverse map after `update_dependencies`, as memberships. -/
theorem mem_get_dependents_update (g : DependencyGraph) (note_id : ℕ)
    (new_deps : Finset ℕ) (references_base : Bool) (a b : ℕ) :
    (a ∈ (g.update_dependencies note_id new_deps references_base).get_dependents b
      ↔ (if b ∈ new_deps ∧ b ∉ g.get_dependencies note_id then
          a = note_id ∨ a ∈ g.get_dependents b
        else if b ∈ g.get_dependencies note_id ∧ b ∉ new_deps then
          a ≠ note_id ∧ a ∈ g.get_dependents b
        else a ∈ g.get_dependents b)) := by
  unfold DependencyGraph.update_dependencies DependencyGraph.get_dependents
    DependencyGraph.get_dependencies
  simp only []
  by_cases h1 : b ∈ new_deps ∧ b ∉ (g.dependencies note_id).getD ∅
  · have h2 : ¬(b ∈ (g.dependencies note_id).getD ∅ ∧ b ∉ new_deps) := by
      intro h; exact h1.2 h.1
    simp [h1, h2]
  · by_cases h2 : b ∈ (g.dependencies note_id).getD ∅ ∧ b ∉ new_deps
    · simp [h1, h2, eraseDependent_getD, Finset.mem_erase]
    · simp [h1, h2]

/-- Coherence is preserved by `update_dependencies`. -/
theorem coherent_update (g : DependencyGraph) (hg : Coherent g) (note_id : ℕ)
    (new_deps : Finset ℕ) (references_base : Bool) :
    Coherent (g.update_dependencies note_id new_deps references_base) := by
  intro a b
  rw [mem_get_dependents_update]
  have hmem : b ∈ (g.update_dependencies note_id new_deps
      references_base).get_dependencies a ↔
      (if a = note_id then b ∈ new_deps else b ∈ g.get_dependencies a) := by
    rw [get_dependencies_update]; split <;> rfl
  rw [hmem]
  by_cases ha : a = note_id
  · subst ha
    by_cases hbn : b ∈ new_deps <;>
      by_cases hbo : b ∈ g.get_dependencies a <;>
        simp [hbn, hbo, ← hg a b]
  · by_cases hbn : b ∈ new_deps <;>
      by_cases hbo : b ∈ g.get_dependencies note_id <;>
        simp [hbn, hbo, ← hg a b, ha]

/-- Forward map after `remove_note`, under coherence: exactly the old edges
not incident to the removed note survive. -/
theorem mem_get_dependencies_remove (g : DependencyGraph) (hg : Coherent g)
    (note_id a b : ℕ) :
    (b ∈ (g.remove_note note_id).get_dependencies a ↔
      a ≠ note_id ∧ b ≠ note_id ∧ b ∈ g.get_dependencies a) := by
  unfold DependencyGraph.remove_note DependencyGraph.get_dependencies
  simp only [Function.update_apply]
  by_cases ha : a = note_id
  · subst ha
    simp
  · simp only [ha, if_neg ha, if_false]
    by_cases hdts : a ∈ (if note_id ∈ (g.dependencies note_id).getD ∅ then
        eraseDependent (g.dependents note_id) note_id
      else g.dependents note_id).getD ∅
    · simp only [hdts, if_true]
      cases hd : g.dependencies a with
      | none =>
        simp [DependencyGraph.get_dependencies, hd, ha]
      | some s =>
        simp [DependencyGraph.get_dependencies, hd, ha, Finset.mem_erase]
    · simp only [hdts, if_false]
      have hnotdep : note_id ∉ (g.dependencies a).getD ∅ := by
        intro hmem
        apply hdts
        have : a ∈ g.get_dependents note_id := (hg a note_id).mp hmem
        split
        · rw [eraseDependent_getD]
          exact Finset.mem_erase.mpr ⟨ha, this⟩
        · exact this
      constructor
      · intro hb
        exact ⟨ha, fun hbid => hnotdep (hbid ▸ hb), hb⟩
      · intro hb
        exact hb.2.2

/-- Inverse map after `remove_note`, under coherence. -/
theorem mem_get_dependents_remove (g : DependencyGraph) (hg : Coherent g)
    (note_id a b : ℕ) :
    (a ∈ (g.remove_note note_id).get_dependents b ↔
      b ≠ note_id ∧ a ≠ note_id ∧ a ∈ g.get_dependents b) := by
  unfold DependencyGraph.remove_note DependencyGraph.get_dependents
  simp only [Function.update_apply]
  by_cases hb : b = note_id
  · subst hb
    simp
  · simp only [hb, if_neg hb, if_false]
    by_cases hdep : b ∈ (g.dependencies note_id).getD ∅
    · simp only [hdep, if_true, eraseDependent_getD, Finset.mem_erase]
      tauto
    · simp only [hdep, if_false]
      constructor
      · intro ha
        refine ⟨hb, fun haid => ?_, ha⟩
        subst haid
        exact hdep ((hg a b).mpr ha)
      · intro ha
        exact ha.2.2

/-- Coherence is preserved by `remove_note`. -/
theorem coherent_remove (g : DependencyGraph) (hg : Coherent g)
    (note_id : ℕ) : Coherent (g.remove_note note_id) := by
  intro a b
  rw [mem_get_dependencies_remove g hg, mem_get_dependents_remove g hg,
    hg a b]
  tauto

/-- The empty graph is coherent. -/
theorem coherent_new : Coherent DependencyGraph.new := by
  intro a b
  simp [DependencyGraph.new, DependencyGraph.get_dependencies,
    DependencyGraph.get_dependents]

/-- Every graph reachable through the mutation API is coherent. -/
theorem coherent_applyGraphOps (ops : List GraphOp) :
    Coherent (applyGraphOps ops) := by
  suffices h : ∀ g, Coherent g → Coherent (ops.foldl applyGraphOp g) by
    exact h DependencyGraph.new coherent_new
  induction ops with
  | nil => intro g hg; exact hg
  | cons op rest ih =>
    intro g hg
    simp only [List.foldl_cons]
    apply ih
    cases op with
    | update note_id new_deps references_base =>
      exact coherent_update g hg note_id new_deps references_base
    | remove note_id => exact coherent_remove g hg note_id

/-- C5: after every sequence of mutations (`updateDependencies` /
`removeNote`) starting from the empty graph, the forward and inverse indices
are mutually consistent: `b ∈ forward[a] ⇔ a ∈ inverse[b]`. -/
theorem graph_bidirectional_invariant (ops : List GraphOp) (a b : ℕ) :
    b ∈ (applyGraphOps ops).get_dependencies a ↔
      a ∈ (applyGraphOps ops).get_dependents b :=
  coherent_applyGraphOps ops a b

/-! ## Kahn loop correctness (C4, C10) -/

/-- `finsetSortAsc` underlies the set it sorts. -/
theorem coe_finsetSortAsc (s : Finset ℕ) :
    ((finsetSortAsc s : List ℕ) : Multiset ℕ) = s.val := by
  rcases s with ⟨m, nd⟩
  induction m using Quotient.inductionOn with
  | h l => exact Quot.sound (List.perm_insertionSort _ l)

/-- Membership in the sorted list is membership in the set. -/
theorem mem_finsetSortAsc (s : Finset ℕ) (x : ℕ) :
    x ∈ finsetSortAsc s ↔ x ∈ s := by
  rw [← Multiset.mem_coe, coe_finsetSortAsc]
  exact Iff.rfl

/-- The sorted list of a set has no duplicates. -/
theorem nodup_finsetSortAsc (s : Finset ℕ) : (finsetSortAsc s).Nodup := by
  have h : Multiset.Nodup (finsetSortAsc s : Multiset ℕ) := by
    rw [coe_finsetSortAsc]; exact s.nodup
  exact Multiset.coe_nodup.mp h

/-- The Kahn stack loop, run with enough fuel from any state satisfying the
invariant, emits a duplicate-free topologically-sorted list of in-set notes
whose in-set complement is blocked.  (Proof of termination adequacy: every
iteration emits exactly one note and notes are never re-queued, so at most
`s.card` iterations happen; the fuel bound keeps the zero-fuel branch
unreachable.) -/
theorem kahnLoop_spec (g : DependencyGraph) (s : Finset ℕ) (hg : Coherent g) :
    ∀ (fuel : ℕ) (deg : ℕ → ℕ) (queue result : List ℕ),
    KahnInv g s deg queue result →
    s.card + 1 ≤ result.length + fuel →
    KahnOut g s (kahnLoop g s fuel deg queue result) := by
  intro fuel
  induction fuel with
  | zero =>
    intro deg queue result inv hbound
    exfalso
    have hnd : result.Nodup := (List.nodup_append.mp inv.nodup).2.1
    have hsub : result.toFinset ⊆ s := by
      intro v hv
      exact inv.rmem v (List.mem_toFinset.mp hv)
    have hcard : result.length ≤ s.card := by
      calc result.length = result.toFinset.card :=
            (List.toFinset_card_of_nodup hnd).symm
        _ ≤ s.card := Finset.card_le_card hsub
    omega
  | succ fuel ih =>
    intro deg queue result inv hbound
    rw [kahnLoop]
    cases hlast : queue.getLast? with
    | none =>
      have hqe : queue = [] := List.getLast?_eq_none_iff.mp hlast
      subst hqe
      refine ⟨(List.nodup_append.mp inv.nodup).2.1, inv.rmem, inv.topo, ?_⟩
      intro v hvs hvr
      have hdeg : deg v ≠ 0 := by
        intro h0
        rcases (inv.ready v hvs).mp h0 with h | h
        · exact absurd h (List.not_mem_nil v)
        · exact hvr h
      rw [inv.degEq v hvs] at hdeg
      obtain ⟨u, hu⟩ := Finset.card_pos.mp (Nat.pos_of_ne_zero hdeg)
      obtain ⟨hu1, hu2, hu3⟩ := Finset.mem_filter.mp hu
      exact ⟨u, hu1, hu2, hu3⟩
    | some nid =>
      have hne : queue ≠ [] := by
        intro h
        rw [h] at hlast
        simp at hlast
      have hql : queue = queue.dropLast ++ [nid] := by
        conv_lhs => rw [← List.dropLast_concat_getLast hne]
        rw [List.getLast?_eq_getLast queue hne] at hlast
        rw [Option.some_inj] at hlast
        rw [hlast]
      have hidq : nid ∈ queue := by
        rw [hql]
        simp
      have hids : nid ∈ s := inv.qmem nid hidq
      have hidnr : nid ∉ result := by
        intro hr
        exact (List.nodup_append.mp inv.nodup).2.2 hidq hr
      have hidnrest : nid ∉ queue.dropLast := by
        have h2 := (List.nodup_append.mp inv.nodup).1
        rw [hql, List.nodup_append] at h2
        exact fun hmem => h2.2.2 hmem (List.mem_singleton_self nid)
      have hdegid : deg nid = 0 := (inv.ready nid hids).mpr (Or.inl hidq)
      have hdepsid : ∀ u ∈ g.get_dependencies nid, u ∈ s → u ∈ result := by
        intro u hu hus
        by_contra hur
        have h0 := inv.degEq nid hids
        rw [hdegid] at h0
        have hm : u ∈ (g.get_dependencies nid).filter
            (fun u => u ∈ s ∧ u ∉ result) :=
          Finset.mem_filter.mpr ⟨hu, hus, hur⟩
        have := Finset.card_pos.mpr ⟨u, hm⟩
        omega
      have hmem_aff : ∀ v,
          (v ∈ (g.get_dependents nid).filter (fun v => v ∈ s) ↔
            v ∈ s ∧ nid ∈ g.get_dependencies v) := by
        intro v
        rw [Finset.mem_filter, hg v nid]
        exact and_comm
      have hdeg_ge : ∀ v ∈ (g.get_dependents nid).filter (fun v => v ∈ s),
          1 ≤ deg v := by
        intro v hv
        obtain ⟨hvs, hvdep⟩ := (hmem_aff v).mp hv
        have h0 := inv.degEq v hvs
        have hm : nid ∈ (g.get_dependencies v).filter
            (fun u => u ∈ s ∧ u ∉ result) :=
          Finset.mem_filter.mpr ⟨hvdep, hids, hidnr⟩
        have := Finset.card_pos.mpr ⟨nid, hm⟩
        omega
      have hmem_nz : ∀ v,
          (v ∈ finsetSortAsc (((g.get_dependents nid).filter
              (fun v => v ∈ s)).filter (fun v => deg v - 1 = 0)) ↔
            v ∈ s ∧ nid ∈ g.get_dependencies v ∧ deg v = 1) := by
        intro v
        rw [mem_finsetSortAsc, Finset.mem_filter]
        constructor
        · intro ⟨haf, h1⟩
          have h2 := hdeg_ge v haf
          obtain ⟨hvs, hdep⟩ := (hmem_aff v).mp haf
          exact ⟨hvs, hdep, by omega⟩
        · intro ⟨hvs, hdep, h1⟩
          exact ⟨(hmem_aff v).mpr ⟨hvs, hdep⟩, by omega⟩
      have hnz_not_old : ∀ v ∈ finsetSortAsc (((g.get_dependents nid).filter
          (fun v => v ∈ s)).filter (fun v => deg v - 1 = 0)),
          v ∉ queue ∧ v ∉ result ∧ v ≠ nid := by
        intro v hv
        obtain ⟨hvs, hdep, h1⟩ := (hmem_nz v).mp hv
        have hne0 : deg v ≠ 0 := by omega
        refine ⟨fun hq => hne0 ((inv.ready v hvs).mpr (Or.inl hq)),
          fun hr => hne0 ((inv.ready v hvs).mpr (Or.inr hr)), fun he => ?_⟩
        subst he
        exact hne0 hdegid
      refine ih _ _ _ ⟨?_, ?_, ?_, ?_, ?_, ?_⟩ (by simp; omega)
      · -- nodup of (rest ++ nz) ++ (result ++ [nid])
        have hold := inv.nodup
        rw [hql, List.nodup_append, List.nodup_append] at hold
        obtain ⟨⟨hrestnd, _, hdisj1⟩, hresnd, hdisj2⟩ := hold
        rw [List.nodup_append, List.nodup_append]
        refine ⟨⟨hrestnd, nodup_finsetSortAsc _, ?_⟩, ?_, ?_⟩
        · intro v hvrest hvnz
          exact ((hnz_not_old v hvnz).1)
            ((List.dropLast_sublist queue).subset hvrest)
        · rw [List.nodup_append]
          refine ⟨hresnd, List.nodup_singleton nid, ?_⟩
          intro v hvres hvid
          rw [List.mem_singleton] at hvid
          subst hvid
          exact hidnr hvres
        · intro v hv
          rw [List.mem_append] at hv
          rw [List.mem_append, List.mem_singleton]
          rcases hv with hv | hv
          · rintro (hvres | rfl)
            · exact hdisj2 (List.mem_append_left _ hv) hvres
            · exact hidnrest hv
          · rintro (hvres | rfl)
            · exact (hnz_not_old v hv).2.1 hvres
            · exact (hnz_not_old v hv).2.2 rfl
      · -- queue membership
        intro v hv
        rw [List.mem_append] at hv
        rcases hv with hv | hv
        · exact inv.qmem v ((List.dropLast_sublist queue).subset hv)
        · exact ((hmem_nz v).mp hv).1
      · -- result membership
        intro v hv
        rw [List.mem_append] at hv
        rcases hv with hv | hv
        · exact inv.rmem v hv
        · rw [List.mem_singleton] at hv
          subst hv
          exact hids
      · -- degree equation
        intro v hvs
        have hfilter : (g.get_dependencies v).filter
            (fun u => u ∈ s ∧ u ∉ result ++ [nid]) =
            ((g.get_dependencies v).filter
              (fun u => u ∈ s ∧ u ∉ result)).erase nid := by
          ext u
          simp only [Finset.mem_filter, Finset.mem_erase, List.mem_append,
            List.mem_singleton]
          tauto
        rw [hfilter]
        by_cases hva : v ∈ (g.get_dependents nid).filter (fun v => v ∈ s)
        · rw [if_pos hva]
          have hidmem : nid ∈ (g.get_dependencies v).filter
              (fun u => u ∈ s ∧ u ∉ result) :=
            Finset.mem_filter.mpr ⟨((hmem_aff v).mp hva).2, hids, hidnr⟩
          rw [Finset.card_erase_of_mem hidmem, ← inv.degEq v hvs]
        · rw [if_neg hva]
          have hidnot : nid ∉ (g.get_dependencies v).filter
              (fun u => u ∈ s ∧ u ∉ result) := by
            intro hmem
            exact hva ((hmem_aff v).mpr
              ⟨hvs, (Finset.mem_filter.mp hmem).1⟩)
          rw [Finset.erase_eq_of_not_mem hidnot, ← inv.degEq v hvs]
      · -- readiness
        intro v hvs
        have hqmem : v ∈ queue ↔ v ∈ queue.dropLast ∨ v = nid := by
          conv_lhs => rw [hql]
          simp
        by_cases hva : v ∈ (g.get_dependents nid).filter (fun v => v ∈ s)
        · rw [if_pos hva]
          have h1 := hdeg_ge v hva
          obtain ⟨_, hdep⟩ := (hmem_aff v).mp hva
          constructor
          · intro h0
            have : v ∈ finsetSortAsc (((g.get_dependents nid).filter
                (fun v => v ∈ s)).filter (fun v => deg v - 1 = 0)) :=
              (hmem_nz v).mpr ⟨hvs, hdep, by omega⟩
            exact Or.inl (List.mem_append_right _ this)
          · intro hv
            rcases hv with hv | hv
            · rw [List.mem_append] at hv
              rcases hv with hv | hv
              · have : deg v = 0 := (inv.ready v hvs).mpr
                  (Or.inl (hqmem.mpr (Or.inl hv)))
                omega
              · have := ((hmem_nz v).mp hv).2.2
                omega
            · rw [List.mem_append, List.mem_singleton] at hv
              rcases hv with hv | rfl
              · have : deg v = 0 := (inv.ready v hvs).mpr (Or.inr hv)
                omega
              · omega
        · rw [if_neg hva]
          have hnnz : v ∉ finsetSortAsc (((g.get_dependents nid).filter
              (fun v => v ∈ s)).filter (fun v => deg v - 1 = 0)) := by
            intro hmem
            obtain ⟨_, hdep, _⟩ := (hmem_nz v).mp hmem
            exact hva ((hmem_aff v).mpr ⟨hvs, hdep⟩)
          rw [inv.ready v hvs, hqmem]
          rw [List.mem_append, List.mem_append, List.mem_singleton]
          constructor
          · rintro ((hv | rfl) | hv)
            · exact Or.inl (Or.inl hv)
            · exact Or.inr (Or.inr rfl)
            · exact Or.inr (Or.inl hv)
          · rintro ((hv | hv) | (hv | rfl))
            · exact Or.inl (Or.inl hv)
            · exact absurd hv hnnz
            · exact Or.inr hv
            · exact Or.inl (Or.inr rfl)
      · -- topological order of the emitted prefix
        intro i h u hu hus
        have hlen : (result ++ [nid]).length = result.length + 1 := by simp
        by_cases hi : i < result.length
        · have hget : (result ++ [nid]).get ⟨i, h⟩ = result.get ⟨i, hi⟩ := by
            rw [List.get_eq_getElem, List.get_eq_getElem,
              List.getElem_append_left hi]
          rw [hget] at hu
          have htake : (result ++ [nid]).take i = result.take i := by
            rw [List.take_append_eq_append_take,
              Nat.sub_eq_zero_of_le (le_of_lt hi), List.take_zero,
              List.append_nil]
          rw [htake]
          exact inv.topo i hi u hu hus
        · have hi2 : i = result.length := by
            rw [hlen] at h
            omega
          subst hi2
          have hget : (result ++ [nid]).get ⟨result.length, h⟩ = nid := by
            simp
          rw [hget] at hu
          have htake : (result ++ [nid]).take result.length = result :=
            List.take_left result [nid]
          rw [htake]
          exact hdepsid u hu hus

/-- `get_evaluation_order` establishes the loop invariant and hands enough
fuel to the loop. -/
theorem get_evaluation_order_spec (g : DependencyGraph) (hg : Coherent g)
    (s : Finset ℕ) : KahnOut g s (g.get_evaluation_order s) := by
  unfold DependencyGraph.get_evaluation_order
  apply kahnLoop_spec g s hg
  · refine ⟨?_, ?_, ?_, ?_, ?_, ?_⟩
    · rw [List.append_nil]
      exact nodup_finsetSortAsc _
    · intro v hv
      rw [mem_finsetSortAsc, Finset.mem_filter] at hv
      exact hv.1
    · intro v hv
      exact absurd hv (List.not_mem_nil v)
    · intro v _
      congr 1
      apply Finset.filter_congr
      intro u _
      simp
    · intro v hvs
      rw [mem_finsetSortAsc, Finset.mem_filter]
      simp [hvs]
    · intro i h
      simp at h
  · simp

/-- C4, corrected (the tie-break direction): on the empty graph with the id
set `{1, 2}` both notes are ready from the start, and the order returned is
`[2, 1]` — the ready vector is sorted ascending but consumed from its end
(`Vec::pop`), so ties among simultaneously ready notes come out in
*descending* id order, not ascending sorted order. -/
theorem evaluation_order_tie_break_counterexample :
    DependencyGraph.new.get_evaluation_order {1, 2} = [2, 1] ∧
    [2, 1] ≠ ([1, 2] : List ℕ) := by
  refine ⟨by decide, by decide⟩

/-- C4 (amended): for a coherent reachable graph and a note set whose
induced subgraph is acyclic, `get_evaluation_order` returns a permutation of
the set (duplicate-free, with exactly the set as its members) in which every
note appears after all of its in-set dependencies.  The output is a
deterministic function of the graph and the set; ties among simultaneously
ready notes are emitted in descending id order (the ascending-sorted ready
stack is consumed from its end), as the counterexample exhibits. -/
theorem evaluation_order_topological (ops : List GraphOp) (s : Finset ℕ)
    (hacyc : AcyclicOn (applyGraphOps ops) s) :
    ((applyGraphOps ops).get_evaluation_order s).Nodup ∧
    ((applyGraphOps ops).get_evaluation_order s).toFinset = s ∧
    (∀ (i : ℕ) (h : i < ((applyGraphOps ops).get_evaluation_order s).length)
      (u : ℕ),
      u ∈ (applyGraphOps ops).get_dependencies
        (((applyGraphOps ops).get_evaluation_order s).get ⟨i, h⟩) →
      u ∈ s →
      u ∈ ((applyGraphOps ops).get_evaluation_order s).take i) := by
  obtain ⟨hnd, hmem, htopo, hcomp⟩ :=
    get_evaluation_order_spec (applyGraphOps ops) (coherent_applyGraphOps ops) s
  refine ⟨hnd, ?_, htopo⟩
  apply Finset.Subset.antisymm
  · intro v hv
    exact hmem v (List.mem_toFinset.mp hv)
  · intro v hv
    by_contra hnr
    rw [List.mem_toFinset] at hnr
    have htne : (s.filter
        (fun x => x ∉ (applyGraphOps ops).get_evaluation_order s)).Nonempty :=
      ⟨v, Finset.mem_filter.mpr ⟨hv, hnr⟩⟩
    obtain ⟨a, hat, hnodep⟩ := hacyc _
      (Finset.mem_powerset.mpr (Finset.filter_subset _ s)) htne
    obtain ⟨has, hanr⟩ := Finset.mem_filter.mp hat
    obtain ⟨u, hu1, hu2, hu3⟩ := hcomp a has hanr
    exact hnodep u (Finset.mem_filter.mpr ⟨hu2, hu3⟩) hu1

/-- Witness for `evaluation_order_topological`: edges `2→1`, `3→2` on the
set `{1, 2, 3}`. -/
theorem evaluation_order_topological_witness :
    AcyclicOn (applyGraphOps [.update 2 {1} false, .update 3 {2} false])
      {1, 2, 3} ∧
    (((applyGraphOps [.update 2 {1} false, .update 3 {2} false]).get_evaluation_order
        {1, 2, 3}).Nodup ∧
      ((applyGraphOps [.update 2 {1} false, .update 3 {2} false]).get_evaluation_order
        {1, 2, 3}).toFinset = {1, 2, 3} ∧
      (∀ (i : ℕ)
        (h : i < ((applyGraphOps [.update 2 {1} false, .update 3 {2} false]).get_evaluation_order
          {1, 2, 3}).length) (u : ℕ),
        u ∈ (applyGraphOps [.update 2 {1} false, .update 3 {2} false]).get_dependencies
          (((applyGraphOps [.update 2 {1} false, .update 3 {2} false]).get_evaluation_order
            {1, 2, 3}).get ⟨i, h⟩) →
        u ∈ ({1, 2, 3} : Finset ℕ) →
        u ∈ ((applyGraphOps [.update 2 {1} false, .update 3 {2} false]).get_evaluation_order
          {1, 2, 3}).take i)) :=
  ⟨by decide,
    evaluation_order_topological [.update 2 {1} false, .update 3 {2} false]
      {1, 2, 3} (by decide)⟩

/-- C10: `get_evaluation_order` silently omits exactly the blocked notes.
A note is emitted iff it belongs to the set and belongs to no
“self-sustaining” subset (a subset each of whose members has a dependency
inside the subset — precisely the notes whose in-set in-degree can never
reach zero: cycle members and everything depending on them).  In particular
no error is reported: blocked notes are simply missing from the returned
list, which is then shorter than the input set. -/
theorem evaluation_order_omits_blocked (ops : List GraphOp) (s : Finset ℕ)
    (v : ℕ) :
    v ∈ (applyGraphOps ops).get_evaluation_order s ↔
      (v ∈ s ∧ ¬∃ t ∈ s.powerset, v ∈ t ∧
        ∀ x ∈ t, ∃ y ∈ t, y ∈ (applyGraphOps ops).get_dependencies x) := by
  obtain ⟨hnd, hmem, htopo, hcomp⟩ :=
    get_evaluation_order_spec (applyGraphOps ops) (coherent_applyGraphOps ops) s
  constructor
  · intro hv
    refine ⟨hmem v hv, ?_⟩
    rintro ⟨t, hts, hvt, hself⟩
    rw [Finset.mem_powerset] at hts
    -- no member of a self-sustaining subset can be emitted: minimal-index
    -- descent along the topological order
    have hnone : ∀ i (h : i < ((applyGraphOps ops).get_evaluation_order s).length),
        ((applyGraphOps ops).get_evaluation_order s).get ⟨i, h⟩ ∈ t → False := by
      intro i
      induction i using Nat.strong_induction_on with
      | _ i ihi =>
        intro h hxt
        obtain ⟨y, hyt, hydep⟩ := hself _ hxt
        have hys : y ∈ s := hts hyt
        have hytake := htopo i h y hydep hys
        obtain ⟨⟨j, hj⟩, hgj⟩ := List.mem_iff_get.mp hytake
        have hjlen : j < ((applyGraphOps ops).get_evaluation_order s).length :=
          lt_of_lt_of_le hj (by
            rw [List.length_take]
            exact le_trans (min_le_right _ _) (le_refl _))
        have hji : j < i := lt_of_lt_of_le hj (by
          rw [List.length_take]
          exact min_le_left _ _)
        apply ihi j hji hjlen
        have : (((applyGraphOps ops).get_evaluation_order s).take i).get ⟨j, hj⟩ =
            ((applyGraphOps ops).get_evaluation_order s).get ⟨j, hjlen⟩ := by
          rw [List.get_eq_getElem, List.get_eq_getElem, List.getElem_take]
        rw [this] at hgj
        rw [hgj]
        exact hyt
    obtain ⟨⟨i, hi⟩, hgi⟩ := List.mem_iff_get.mp hv
    exact hnone i hi (hgi ▸ hvt)
  · rintro ⟨hvs, hnone⟩
    by_contra hvr
    apply hnone
    refine ⟨s.filter (fun x => x ∉ (applyGraphOps ops).get_evaluation_order s),
      Finset.mem_powerset.mpr (Finset.filter_subset _ s),
      Finset.mem_filter.mpr ⟨hvs, hvr⟩, ?_⟩
    intro x hxt
    obtain ⟨hxs, hxnr⟩ := Finset.mem_filter.mp hxt
    obtain ⟨u, hu1, hu2, hu3⟩ := hcomp x hxs hxnr
    exact ⟨u, Finset.mem_filter.mpr ⟨hu2, hu3⟩, hu1⟩

/-! ## `Fraction::from_f64` (C8) -/

/-- The saturating `as i64` cast is the identity inside the `i64` range. -/
theorem i64_sat_eq (z : ℤ) (h1 : -9223372036854775808 ≤ z)
    (h2 : z ≤ 9223372036854775807) : i64_sat z = z := by
  unfold i64_sat
  omega

/-- The floor of one half. -/
theorem floor_one_half : ⌊(1/2 : ℚ)⌋ = 0 := by
  rw [Int.floor_eq_iff]
  norm_num

/-- Rounding an integer returns it. -/
theorem roundHalfAway_intCast (n : ℤ) : roundHalfAway (n : ℚ) = n := by
  unfold roundHalfAway
  by_cases h : (0 : ℚ) ≤ (n : ℚ)
  · rw [if_pos h, Int.floor_int_add, floor_one_half, add_zero]
  · rw [if_neg h]
    rw [show -(n : ℚ) + 1/2 = ((-n : ℤ) : ℚ) + 1/2 by push_cast; ring]
    rw [Int.floor_int_add, floor_one_half, add_zero, neg_neg]

/-- Rounding a value in `[0, M]` lands in `[0, M + 1]`. -/
theorem roundHalfAway_bounds (x : ℚ) (M : ℤ) (h0 : 0 ≤ x) (hM : x ≤ (M : ℚ)) :
    0 ≤ roundHalfAway x ∧ roundHalfAway x ≤ M + 1 := by
  unfold roundHalfAway
  rw [if_pos h0]
  constructor
  · rw [Int.le_floor]
    push_cast
    linarith
  · have h1 : ⌊x + 1/2⌋ ≤ ⌊(M : ℚ) + 1/2⌋ := Int.floor_le_floor (by linarith)
    rw [Int.floor_int_add, floor_one_half, add_zero] at h1
    omega

/-- The distance from a rational to any fraction `n/d` is zero or at least
`1 / (den * d)`. -/
theorem rat_dist_lb (a : ℚ) (n : ℤ) (d : ℕ) (hd : 1 ≤ d) :
    |a - (n : ℚ) / (d : ℚ)| = 0 ∨
      1 / ((a.den : ℚ) * (d : ℚ)) ≤ |a - (n : ℚ) / (d : ℚ)| := by
  have hdQ : (d : ℚ) ≠ 0 := by
    exact_mod_cast Nat.one_le_iff_ne_zero.mp hd
  have hdenQ : (a.den : ℚ) ≠ 0 := by
    exact_mod_cast a.den_nz
  have key : a - (n : ℚ) / (d : ℚ) =
      ((a.num * d - n * a.den : ℤ) : ℚ) / ((a.den : ℚ) * (d : ℚ)) := by
    conv_lhs => rw [← Rat.num_div_den a]
    push_cast
    field_simp
    ring
  by_cases hz : a.num * d - n * a.den = 0
  · left
    rw [key, hz]
    simp
  · right
    rw [key, abs_div]
    have h1 : (1 : ℚ) ≤ |((a.num * d - n * a.den : ℤ) : ℚ)| := by
      rw [← Int.cast_abs]
      exact_mod_cast Int.one_le_abs hz
    have hpos : 0 < (a.den : ℚ) * (d : ℚ) := by
      have : 0 < (a.den : ℚ) := by positivity
      have : 0 < (d : ℚ) := by
        exact_mod_cast hd
      positivity
    rw [abs_of_pos hpos]
    gcongr

/-- The scanning loop of `from_f64` recovers an exact positive rational with
small numerator whenever its reduced denominator is still among the
remaining candidates and the incoming best error is nonzero: the first
candidate divisible by the reduced denominator hits the value exactly,
trips the tolerance check and is returned; no earlier candidate can get
below the tolerance because every nonzero error with denominators up to 100
is at least `1/10000`. -/
theorem fromF64Loop_exact (a : ℚ) (ha : 0 < a) (hden : a.den ≤ 100)
    (hnum : a.num ≤ 9007199254740992) :
    ∀ (dens : List ℕ) (bn : ℤ) (bd : ℕ) (be : ℚ),
    (∀ d ∈ dens, 1 ≤ d ∧ d ≤ 100) →
    a.den ∈ dens →
    0 < be →
    1 ≤ bd →
    (1 ≤ (fromF64Loop a dens bn bd be).2 ∧
      ((fromF64Loop a dens bn bd be).1 : ℚ) /
        ((fromF64Loop a dens bn bd be).2 : ℚ) = a) := by
  intro dens
  induction dens with
  | nil =>
    intro bn bd be _ hmem _ _
    exact absurd hmem (List.not_mem_nil _)
  | cons d rest ih =>
    intro bn bd be hdens hmem hbe hbd
    obtain ⟨hd1, hd100⟩ := hdens d (List.mem_cons_self d rest)
    have hdQ : (0 : ℚ) < (d : ℚ) := by exact_mod_cast hd1
    have haN : a ≤ (a.num : ℚ) := by
      conv_lhs => rw [← Rat.num_div_den a]
      have h1 : (1 : ℚ) ≤ (a.den : ℚ) := by
        exact_mod_cast Nat.succ_le_of_lt a.pos
      have h2 : (0 : ℚ) ≤ (a.num : ℚ) := by
        have := Rat.num_pos.mpr ha
        exact_mod_cast this.le
      calc (a.num : ℚ) / (a.den : ℚ) ≤ (a.num : ℚ) / 1 := by gcongr
        _ = (a.num : ℚ) := div_one _
    have hxub : a * (d : ℚ) ≤ ((9007199254740992 * 100 : ℤ) : ℚ) := by
      have h1 : a * (d : ℚ) ≤ (a.num : ℚ) * 100 := by
        have hd100Q : (d : ℚ) ≤ 100 := by exact_mod_cast hd100
        have h0 : (0 : ℚ) ≤ a := ha.le
        calc a * (d : ℚ) ≤ a * 100 := by gcongr
          _ ≤ (a.num : ℚ) * 100 := by gcongr
      calc a * (d : ℚ) ≤ (a.num : ℚ) * 100 := h1
        _ ≤ ((9007199254740992 * 100 : ℤ) : ℚ) := by
            push_cast
            have : (a.num : ℚ) ≤ 9007199254740992 := by exact_mod_cast hnum
            linarith
    have hx0 : (0 : ℚ) ≤ a * (d : ℚ) := by positivity
    obtain ⟨hr0, hr1⟩ := roundHalfAway_bounds (a * (d : ℚ)) _ hx0 hxub
    have hsat : i64_sat (roundHalfAway (a * (d : ℚ))) =
        roundHalfAway (a * (d : ℚ)) := by
      apply i64_sat_eq <;> omega
    rw [fromF64Loop]
    simp only [hsat]
    by_cases hdvd : a.den ∣ d
    · obtain ⟨k, hk⟩ := hdvd
      have hk1 : 1 ≤ k := by
        rcases Nat.eq_zero_or_pos k with h0 | h1
        · rw [h0, Nat.mul_zero] at hk
          omega
        · exact h1
      have hxz : a * (d : ℚ) = ((a.num * (k : ℤ) : ℤ) : ℚ) := by
        have hdenQ : ((a.den : ℚ)) ≠ 0 := by
          exact_mod_cast a.den_nz
        have hself : a * (a.den : ℚ) = (a.num : ℚ) := by
          exact_mod_cast Rat.mul_den_eq_num a
        rw [hk]
        push_cast
        rw [← mul_assoc, hself]
      have hr : roundHalfAway (a * (d : ℚ)) = a.num * (k : ℤ) := by
        rw [hxz, roundHalfAway_intCast]
      have hexact : ((roundHalfAway (a * (d : ℚ)) : ℤ) : ℚ) / (d : ℚ) = a := by
        rw [hr, ← hxz]
        field_simp
      have herr : |a - ((roundHalfAway (a * (d : ℚ)) : ℤ) : ℚ) / (d : ℚ)| = 0 := by
        rw [hexact]
        simp
      rw [herr]
      rw [if_pos hbe, if_pos (by norm_num)]
      exact ⟨hd1, hexact⟩
    · have hdne : a.den ∈ rest := by
        rcases List.mem_cons.mp hmem with h | h
        · exact absurd (h ▸ dvd_refl a.den) hdvd
        · exact h
      have herr_ne : |a - ((roundHalfAway (a * (d : ℚ)) : ℤ) : ℚ) / (d : ℚ)| ≠ 0 := by
        intro h0
        rw [abs_eq_zero, sub_eq_zero] at h0
        apply hdvd
        have hdd : ∀ (n m : ℤ) (x : ℚ), x = (n : ℚ) / (m : ℚ) →
            ((x.den : ℤ)) ∣ m := by
          intro n m x hx
          rw [hx, ← Rat.divInt_eq_div]
          exact Rat.den_dvd n m
        have h1 : a = ((roundHalfAway (a * (d : ℚ)) : ℤ) : ℚ) /
            (((d : ℕ) : ℤ) : ℚ) := by
          exact_mod_cast h0
        have h2 := hdd _ _ a h1
        exact_mod_cast h2
      have herr_lb : 1/10000 ≤
          |a - ((roundHalfAway (a * (d : ℚ)) : ℤ) : ℚ) / (d : ℚ)| := by
        rcases rat_dist_lb a (roundHalfAway (a * (d : ℚ))) d hd1 with h0 | hlb
        · exact absurd h0 herr_ne
        · refine le_trans ?_ hlb
          have h1 : ((a.den : ℚ)) * (d : ℚ) ≤ 10000 := by
            have ha1 : ((a.den : ℚ)) ≤ 100 := by exact_mod_cast hden
            have ha2 : ((d : ℚ)) ≤ 100 := by exact_mod_cast hd100
            have ha3 : (0 : ℚ) ≤ (a.den : ℚ) := by positivity
            nlinarith
          have h2 : (0 : ℚ) < ((a.den : ℚ)) * (d : ℚ) := by
            have : (0 : ℚ) < (a.den : ℚ) := by
              exact_mod_cast a.pos
            positivity
          rw [div_le_div_iff₀ (by norm_num) h2]
          linarith
      have herr_pos : 0 <
          |a - ((roundHalfAway (a * (d : ℚ)) : ℤ) : ℚ) / (d : ℚ)| := by
        have : (0:ℚ) < 1/10000 := by norm_num
        linarith
      have herr_ntol : ¬(|a - ((roundHalfAway (a * (d : ℚ)) : ℤ) : ℚ) / (d : ℚ)|
          < 1/10000000000) := by
        intro h
        have : (1 : ℚ)/10000000000 < 1/10000 := by norm_num
        linarith
      have hrest : ∀ d' ∈ rest, 1 ≤ d' ∧ d' ≤ 100 :=
        fun d' hd' => hdens d' (List.mem_cons_of_mem d hd')
      by_cases hlt : |a - ((roundHalfAway (a * (d : ℚ)) : ℤ) : ℚ) / (d : ℚ)| <
          be
      · rw [if_pos hlt, if_neg herr_ntol]
        exact ih _ _ _ hrest hdne herr_pos hd1
      · rw [if_neg hlt]
        exact ih _ _ _ hrest hdne hbe hbd

/-- C8, corrected (the search bound): `from_f64` searches denominators only
up to `max_iterations = 100` (not 10 000, which is the bound of the
compiler's separate `decimal_to_fraction` helper), so `1/101` is recovered
as `1/100`, an error of `1/10100`, far outside the `1e-10` tolerance. -/
theorem from_f64_bound_counterexample :
    Fraction.from_f64 (1/101) = 1/100 ∧
    ¬(|(1/101 : ℚ) - 1/100| < 1/10000000000) := by
  refine ⟨by decide, by decide⟩

/-- C8 (amended): for every rational `p/q` with `1 ≤ q ≤ 100` (and `|p|`
within the exactly-representable range `2⁵³`, so that the modelled
`f64`-to-`i64` casts are exact), `Fraction::from_f64` recovers the value
exactly. -/
theorem from_f64_small_denominator (p : ℤ) (q : ℕ) (hq1 : 1 ≤ q)
    (hq2 : q ≤ 100) (hp : p.natAbs ≤ 9007199254740992) :
    Fraction.from_f64 ((p : ℚ) / (q : ℚ)) = (p : ℚ) / (q : ℚ) := by
  by_cases hp0 : p = 0
  · subst hp0
    simp [Fraction.from_f64, Fraction.new_raw]
  · have hqQ : ((q : ℚ)) ≠ 0 := by
      have : (0 : ℚ) < (q : ℚ) := by exact_mod_cast hq1
      exact ne_of_gt this
    have hpQ : ((p : ℚ)) ≠ 0 := Int.cast_ne_zero.mpr hp0
    have hv0 : (p : ℚ) / (q : ℚ) ≠ 0 := div_ne_zero hpQ hqQ
    have ha : 0 < |(p : ℚ) / (q : ℚ)| := abs_pos.mpr hv0
    have habs0 : ¬(|(p : ℚ) / (q : ℚ)| = 0) := ne_of_gt ha
    have hdd : ∀ (n m : ℤ) (x : ℚ), x = (n : ℚ) / (m : ℚ) →
        ((x.den : ℤ)) ∣ m := by
      intro n m x hx
      rw [hx, ← Rat.divInt_eq_div]
      exact Rat.den_dvd n m
    have hdvd : (((p : ℚ) / (q : ℚ)).den : ℤ) ∣ ((q : ℕ) : ℤ) := by
      apply hdd p
      push_cast
      rfl
    have hvden : ((p : ℚ) / (q : ℚ)).den ≤ 100 := by
      have h1 : ((p : ℚ) / (q : ℚ)).den ∣ q := by exact_mod_cast hdvd
      exact le_trans (Nat.le_of_dvd (by omega) h1) hq2
    have habs_den : |(p : ℚ) / (q : ℚ)|.den = ((p : ℚ) / (q : ℚ)).den := by
      rcases abs_choice ((p : ℚ) / (q : ℚ)) with h | h <;> rw [h]
      exact Rat.neg_den _
    have hnum_dvd : ((p : ℚ) / (q : ℚ)).num ∣ p := by
      have h1 : (p : ℚ) / (q : ℚ) = Rat.divInt p ((q : ℕ) : ℤ) := by
        rw [Rat.divInt_eq_div]
        push_cast
        rfl
      rw [h1]
      apply Rat.num_dvd
      exact_mod_cast Nat.one_le_iff_ne_zero.mp hq1
    have habs_num : |(p : ℚ) / (q : ℚ)|.num = |((p : ℚ) / (q : ℚ)).num| := by
      rcases le_or_lt 0 ((p : ℚ) / (q : ℚ)) with h | h
      · rw [abs_of_nonneg h, abs_of_nonneg (Rat.num_nonneg.mpr h)]
      · rw [abs_of_neg h, Rat.neg_num, abs_of_neg (Rat.num_neg.mpr h)]
    have hanum : |(p : ℚ) / (q : ℚ)|.num ≤ 9007199254740992 := by
      rw [habs_num]
      have h1 : |((p : ℚ) / (q : ℚ)).num| ≤ |p| := by
        rcases eq_or_ne (((p : ℚ) / (q : ℚ)).num) 0 with h | h
        · rw [h]
          simp
        · exact Int.le_of_dvd (abs_pos.mpr hp0) ((abs_dvd _ _).mpr
            ((dvd_abs _ _).mpr hnum_dvd))
      have h2 : |p| ≤ 9007199254740992 := by
        rw [Int.abs_eq_natAbs]
        exact_mod_cast hp
      omega
    have hanum0 : 0 ≤ |(p : ℚ) / (q : ℚ)|.num :=
      Rat.num_nonneg.mpr (abs_nonneg _)
    have haN : |(p : ℚ) / (q : ℚ)| ≤ ((|(p : ℚ) / (q : ℚ)|.num : ℤ) : ℚ) := by
      conv_lhs => rw [← Rat.num_div_den |(p : ℚ) / (q : ℚ)|]
      have h1 : (1 : ℚ) ≤ (|(p : ℚ) / (q : ℚ)|.den : ℚ) := by
        exact_mod_cast Nat.succ_le_of_lt (|(p : ℚ) / (q : ℚ)|).pos
      have h2 : (0 : ℚ) ≤ ((|(p : ℚ) / (q : ℚ)|.num : ℤ) : ℚ) := by
        exact_mod_cast hanum0
      calc ((|(p : ℚ) / (q : ℚ)|.num : ℤ) : ℚ) / (|(p : ℚ) / (q : ℚ)|.den : ℚ)
          ≤ ((|(p : ℚ) / (q : ℚ)|.num : ℤ) : ℚ) / 1 := by gcongr
        _ = ((|(p : ℚ) / (q : ℚ)|.num : ℤ) : ℚ) := div_one _
    obtain ⟨hr0, hr1⟩ := roundHalfAway_bounds |(p : ℚ) / (q : ℚ)| _
      (abs_nonneg _) (le_trans haN (by exact_mod_cast hanum))
    have hsat : i64_sat (roundHalfAway |(p : ℚ) / (q : ℚ)|) =
        roundHalfAway |(p : ℚ) / (q : ℚ)| := by
      apply i64_sat_eq <;> omega
    have hsign : ((if (p : ℚ) / (q : ℚ) < 0 then (-1 : ℤ) else 1) : ℚ) *
        |(p : ℚ) / (q : ℚ)| = (p : ℚ) / (q : ℚ) := by
      by_cases hneg : (p : ℚ) / (q : ℚ) < 0
      · rw [if_pos hneg, abs_of_neg hneg]
        push_cast
        ring
      · rw [if_neg hneg, abs_of_nonneg (le_of_not_lt hneg)]
        ring
    by_cases hint : |(p : ℚ) / (q : ℚ)|.den = 1
    · -- the value is an integer: the pre-loop round branch fires
      have hval : |(p : ℚ) / (q : ℚ)| =
          ((|(p : ℚ) / (q : ℚ)|.num : ℤ) : ℚ) := by
        conv_lhs => rw [← Rat.num_div_den |(p : ℚ) / (q : ℚ)|]
        rw [hint]
        norm_num
      have hround : roundHalfAway |(p : ℚ) / (q : ℚ)| =
          |(p : ℚ) / (q : ℚ)|.num := by
        conv_lhs => rw [hval]
        exact roundHalfAway_intCast _
      have hzero : |(|(p : ℚ) / (q : ℚ)|) -
          ((roundHalfAway |(p : ℚ) / (q : ℚ)| : ℤ) : ℚ)| = 0 := by
        rw [hround, ← hval]
        simp
      simp only [Fraction.from_f64]
      rw [if_neg habs0, if_pos (by rw [hzero]; norm_num)]
      rw [hsat, hround]
      unfold Fraction.new_raw
      rw [if_neg one_ne_zero]
      push_cast
      rw [div_one, ← hval]
      exact hsign
    · -- non-integer: the scan reaches the reduced denominator exactly
      have hden2 : 2 ≤ |(p : ℚ) / (q : ℚ)|.den := by
        have := (|(p : ℚ) / (q : ℚ)|).pos
        omega
      have hnottol : ¬(|(|(p : ℚ) / (q : ℚ)|) -
          ((roundHalfAway |(p : ℚ) / (q : ℚ)| : ℤ) : ℚ)| < 1/10000000000) := by
        rcases rat_dist_lb |(p : ℚ) / (q : ℚ)|
            (roundHalfAway |(p : ℚ) / (q : ℚ)|) 1 (le_refl 1) with h0 | hlb
        · exfalso
          rw [abs_eq_zero, sub_eq_zero] at h0
          apply hint
          rw [h0]
          norm_num
        · intro hlt
          rw [Nat.cast_one, mul_one] at hlb
          have hb : (1 : ℚ) / 100 ≤ 1 / (|(p : ℚ) / (q : ℚ)|.den : ℚ) := by
            have h1 : ((|(p : ℚ) / (q : ℚ)|.den : ℚ)) ≤ 100 := by
              rw [habs_den]
              exact_mod_cast hvden
            have h2 : (0 : ℚ) < (|(p : ℚ) / (q : ℚ)|.den : ℚ) := by
              exact_mod_cast (|(p : ℚ) / (q : ℚ)|).pos
            rw [div_le_div_iff₀ (by norm_num) h2]
            linarith
          rw [div_one] at hlb
          have : (1 : ℚ) / 100 < 1/10000000000 := by
            calc (1 : ℚ) / 100 ≤ 1 / (|(p : ℚ) / (q : ℚ)|.den : ℚ) := hb
              _ ≤ _ := hlb
              _ < 1/10000000000 := hlt
          norm_num at this
      have herrpos : 0 < |(|(p : ℚ) / (q : ℚ)|) -
          ((i64_sat (roundHalfAway |(p : ℚ) / (q : ℚ)|) : ℤ) : ℚ)| := by
        rw [hsat]
        rcases lt_or_eq_of_le (abs_nonneg ((|(p : ℚ) / (q : ℚ)|) -
            ((roundHalfAway |(p : ℚ) / (q : ℚ)| : ℤ) : ℚ))) with h | h
        · exact h
        · exfalso
          apply hnottol
          rw [← h]
          norm_num
      obtain ⟨hb1, hb2⟩ := fromF64Loop_exact |(p : ℚ) / (q : ℚ)| ha
        (habs_den ▸ hvden) hanum (List.range' 1 100)
        (i64_sat (roundHalfAway |(p : ℚ) / (q : ℚ)|)) 1
        (|(|(p : ℚ) / (q : ℚ)|) -
          ((i64_sat (roundHalfAway |(p : ℚ) / (q : ℚ)|) : ℤ) : ℚ)|)
        (by
          intro d hd
          rw [List.mem_range'] at hd
          obtain ⟨i, hi, rfl⟩ := hd
          omega)
        (by
          rw [List.mem_range']
          refine ⟨|(p : ℚ) / (q : ℚ)|.den - 1, by omega, by omega⟩)
        herrpos (le_refl 1)
      simp only [Fraction.from_f64]
      rw [if_neg habs0, if_neg hnottol]
      unfold Fraction.new_raw
      rw [if_neg (by exact_mod_cast Nat.one_le_iff_ne_zero.mp hb1)]
      push_cast
      rw [mul_div_assoc, hb2]
      exact hsign

/-- Witness for `from_f64_small_denominator` at `p = 1`, `q = 3`. -/
theorem from_f64_small_denominator_witness :
    (1 ≤ 3 ∧ (3 : ℕ) ≤ 100 ∧ (1 : ℤ).natAbs ≤ 9007199254740992) ∧
    Fraction.from_f64 (((1 : ℤ) : ℚ) / ((3 : ℕ) : ℚ)) =
      ((1 : ℤ) : ℚ) / ((3 : ℕ) : ℚ) :=
  ⟨⟨by decide, by decide, by decide⟩,
    from_f64_small_denominator 1 3 (by decide) (by decide) (by decide)⟩
